import Mathlib

/-!
# Verification of the rstf codegen / dependency-analysis pipeline

This file gives a shallow embedding, in Lean 4, of the core of the `rstf`
web framework: the Go route-file parser (`parse.go`), the TypeScript import
walker (`imports.go`), the route conventions (`conventions.go`), the server
entry-point generator (`server.go`), and the full / incremental generation
pipeline (`generate.go`, `Generator.Generate` / `Generator.Regenerate`).

Modelling conventions:
* Paths are represented root-relatively.  A directory is a `List String` of
  path segments (the empty list is the project root); the string keys used
  by the Go maps (`"."` for the root, `"a/b"` otherwise, as produced by
  `filepath.Rel` + `filepath.ToSlash`) are obtained with `dirKey`.
* The filesystem is a finite snapshot (`FS`): an association list of Go
  directories (each a list of parsed-or-invalid Go files, in lexical file
  order, exactly what both `filepath.WalkDir` and `os.ReadDir` enumerate)
  and an association list of `.tsx` files.  The content of a `.tsx` file is
  abstracted to the list of relative-import specifiers that
  `extractLocalImports` extracts from it.
* Goroutine fan-out with a barrier join and deterministic (sorted) output
  is modelled by a sequential fold; map iteration is replaced by canonical
  (sorted association list) maps, which is what makes the generated output
  deterministic in the first place.
* All Go string operations are re-implemented over `List Char` by
  structural recursion (library `String` functions such as `splitOn` do not
  reduce in the kernel); each such helper names the Go function it mirrors.
* Disk writes of artifacts (`.d.ts`, runtime modules, hydration entries,
  symlinks) are not modelled: no claim below refers to on-disk artifact
  content, only to the generator's persisted in-memory state and to the
  text of the generated server source.
-/

/-! ## Basic string helpers shared by the embedded Go code -/


/-- Go `strings.Split(s, sep)` for a single-character separator, over the
character list. `Split("", sep) = [""]`, matching Go. -/
def splitOnChar (sep : Char) : List Char → List (List Char)
  | [] => [[]]
  | c :: cs =>
    let r := splitOnChar sep cs
    if c = sep then [] :: r
    else
      match r with
      | [] => [[c]]
      | g :: gs => (c :: g) :: gs

/-- Go `strings.Split(s, sep)` (single-character separator), on strings. -/
def strSplitOn (sep : Char) (s : String) : List String :=
  (splitOnChar sep s.data).map String.mk

/-- Go `strings.Join(elems, sep)`. -/
def joinSep (sep : String) : List String → String
  | [] => ""
  | [x] => x
  | x :: xs => x ++ sep ++ joinSep sep xs

/-- Go `strings.ToUpper(s[:1]) + s[1:]` — `ucFirst` from parse.go
(ASCII case mapping suffices for the identifiers involved). -/
def ucFirst (s : String) : String :=
  match s.data with
  | [] => s
  | c :: cs => String.mk (c.toUpper :: cs)

/-- Go `strings.ToLower(s[:1]) + s[1:]` — `lcFirst` from parse.go. -/
def lcFirst (s : String) : String :=
  match s.data with
  | [] => s
  | c :: cs => String.mk (c.toLower :: cs)

/-- Go `ast.IsExported`: the first character is upper-case. -/
def isExported (s : String) : Bool :=
  match s.data with
  | [] => false
  | c :: _ => c.isUpper

/-- Go `strings.HasPrefix`, over character lists. -/
def hasPre : List Char → List Char → Bool
  | [], _ => true
  | _ :: _, [] => false
  | p :: ps, c :: cs => p = c && hasPre ps cs

/-- Go `strings.TrimPrefix` over character lists (drops `p` when it is a
prefix, otherwise returns the list unchanged). -/
def trimPreL (p : List Char) (l : List Char) : List Char :=
  if hasPre p l then l.drop p.length else l

/-- Go `strings.HasSuffix`, over character lists. -/
def hasSuf (suf l : List Char) : Bool :=
  hasPre suf.reverse l.reverse

/-- Go `strings.TrimSuffix` over character lists. -/
def trimSufL (suf l : List Char) : List Char :=
  if hasSuf suf l then l.take (l.length - suf.length) else l

/-- Go `strings.TrimSuffix` on strings. -/
def trimSuf (s suf : String) : String :=
  String.mk (trimSufL suf.data s.data)

/-- Go `strings.TrimPrefix` on strings. -/
def trimPre (s pre : String) : String :=
  String.mk (trimPreL pre.data s.data)

/-- Go `strings.ReplaceAll(s, string(c), "")` — delete one character. -/
def stripChar (c : Char) (s : String) : String :=
  String.mk (s.data.filter (· ≠ c))

/-- Go `strings.ReplaceAll(s, string(a), string(b))` — replace one
character by another. -/
def replChar (a b : Char) (s : String) : String :=
  String.mk (s.data.map fun c => if c = a then b else c)

/-- Go `strings.Count(s, string(c))`. -/
def charCount (c : Char) (s : String) : Nat :=
  s.data.count c

/-- `needle` occurs as a contiguous substring of `haystack`
(char-list infix occurrence, i.e. Go `strings.Contains`). -/
def substrOf (needle haystack : String) : Prop :=
  ∃ a b : List Char, haystack.data = a ++ needle.data ++ b

/-! ### Executable lexicographic string order

Go compares strings byte-wise; UTF-8 preserves code-point order, so the
code-point-wise comparison below is the same order.  The library order on
`String` is not kernel-reducible, so sorting uses these boolean
comparators, and `strLe_iff_le` bridges to the `LinearOrder` on
`String`. -/

/-- Boolean strict lexicographic order on character lists. -/
def listCharLt : List Char → List Char → Bool
  | [], [] => false
  | [], _ :: _ => true
  | _ :: _, [] => false
  | a :: as, b :: bs =>
    if a.toNat < b.toNat then true
    else if b.toNat < a.toNat then false
    else listCharLt as bs

/-- Boolean strict order on strings (Go `s < t`). -/
def strLt (s t : String) : Bool :=
  listCharLt s.data t.data

/-- Boolean order on strings (Go `s <= t`). -/
def strLe (s t : String) : Bool :=
  !(strLt t s)

/-- Insertion step of a lexicographic insertion sort on strings. -/
def insertSorted (x : String) : List String → List String
  | [] => [x]
  | y :: ys => if strLe x y then x :: y :: ys else y :: insertSorted x ys

/-- Lexicographic insertion sort: the model's canonical replacement for
`sort.Strings` and for iteration over Go maps in key order. -/
def sortStrings (l : List String) : List String :=
  l.foldr insertSorted []

/-! ## internal/conventions (conventions.go) -/

namespace conventions

/-- `FolderToURLPattern` from conventions.go: converts a route folder name
to a Go 1.22 ServeMux URL pattern.  Dots become path separators, a
`$param` segment becomes `{param}` (the `seg.data` match is Go's
`strings.HasPrefix(seg, "$")` / `seg[1:]`), and the folder name `index`
maps to `/`. -/
def FolderToURLPattern (folderName : String) : String :=
  if folderName = "index" then "/"
  else
    let segments := (strSplitOn '.' folderName).map fun seg =>
      match seg.data with
      | '$' :: rest => "\x7b" ++ String.mk rest ++ "\x7d"
      | _ => seg
    "/" ++ joinSep "/" segments

/-- `IsRouteDir` from conventions.go: a project-relative path lies inside
the `routes/` directory. -/
def IsRouteDir (path : String) : Bool :=
  path = "routes" || hasPre "routes/".data path.data

/-- The folder-to-URL convention exactly as the specification words it:
split the folder name on `.`; each dot-separated segment becomes a path
segment; a segment of the form `$name` becomes the named path parameter
`{name}`; the literal segment list `["index"]` (the folder name `index`)
maps to the root path. -/
def specFolderToURLPattern (folderName : String) : String :=
  let rawSegments := strSplitOn '.' folderName
  if rawSegments = ["index"] then "/"
  else
    let segments := rawSegments.map fun seg =>
      match seg.data with
      | '$' :: rest => "\x7b" ++ String.mk rest ++ "\x7d"
      | _ => seg
    "/" ++ joinSep "/" segments

end conventions

/-! ## internal/codegen — the Go route-file parser (parse.go)

The Go AST is modelled by the fragment the parser inspects: identifiers,
array types, pointer types and package-qualified selectors; struct type
declarations with (possibly multi-name, possibly tagged) fields; top-level
function declarations with a parameter type list and an optional result
field list.  A syntactically invalid file is `GoSrcFile.invalid`. -/

namespace codegen

/-- The fragment of `ast.Expr` that `resolveType` / `isContextParam`
inspect. `sel pkg name` is `*ast.SelectorExpr` (`pkg.name`); `other`
covers every remaining expression form (maps, funcs, chans, ...). -/
inductive GoType where
  | ident (name : String)
  | arr (elt : GoType)
  | star (t : GoType)
  | sel (pkg name : String)
  | other
  deriving DecidableEq, Repr

/-- One field of a struct declaration as it appears in the source:
`names` (empty for an embedded field), the raw backquoted tag literal if
present, and the type expression. -/
structure FieldSrc where
  names : List String
  tag : Option String
  typ : GoType
  deriving DecidableEq, Repr

/-- One result field of a function signature (a single `ast.Field` in
`fn.Type.Results.List`; several names on one field denote several return
values). -/
structure ResultField where
  names : List String
  typ : GoType
  deriving DecidableEq, Repr

/-- A top-level function declaration: name, whether it has a receiver,
the parameter types in order, and the result field list (`none` models a
`nil` `fn.Type.Results`). -/
structure FuncSrc where
  name : String
  recv : Bool
  params : List GoType
  results : Option (List ResultField)
  deriving DecidableEq, Repr

/-- One declaration the parser inspects: a struct type declaration, a
non-struct type declaration, or a function declaration. -/
inductive Decl where
  | typeStruct (name : String) (fields : List FieldSrc)
  | typeOther (name : String)
  | funcD (fn : FuncSrc)
  deriving DecidableEq, Repr

/-- One `.go` file of a directory: its package name and declarations when
it parses, or `invalid` when `parser.ParseFile` fails on it. -/
inductive GoSrcFile where
  | valid (pkg : String) (decls : List Decl)
  | invalid
  deriving DecidableEq, Repr

/-- `RouteFunc` from parse.go. -/
structure RouteFunc where
  Name : String
  ReturnType : String
  HasContext : Bool
  deriving DecidableEq, Repr

/-- `StructField` from parse.go (`Typ` models the source field `Type`,
the mapped TypeScript type; `Type` is reserved in Lean). -/
structure StructField where
  Name : String
  JSONName : String
  Typ : String
  deriving DecidableEq, Repr

/-- `StructDef` from parse.go. -/
structure StructDef where
  Name : String
  Fields : List StructField
  deriving DecidableEq, Repr

/-- `RouteFile` from parse.go. -/
structure RouteFile where
  Dir : String
  Package : String
  Funcs : List RouteFunc
  Structs : List StructDef
  deriving DecidableEq, Repr

/-- `routeFuncNames` from parse.go: the recognized handler names. -/
def routeFuncNames (s : String) : Bool :=
  s = "SSR"

/-- `resolveType` from parse.go: the base type name and whether the type
is a slice. -/
def resolveType : GoType → String × Bool
  | .ident n => (n, false)
  | .arr t => ((resolveType t).1, true)
  | .star t => resolveType t
  | _ => ("", false)

/-- `isPrimitiveGoType` from parse.go. -/
def isPrimitiveGoType (name : String) : Bool :=
  name = "string" || name = "bool" ||
  name = "int" || name = "int8" || name = "int16" || name = "int32" ||
  name = "int64" ||
  name = "uint" || name = "uint8" || name = "uint16" || name = "uint32" ||
  name = "uint64" ||
  name = "float32" || name = "float64"

/-- `goTypeToTS` from parse.go. -/
def goTypeToTS (goType : String) (isSlice : Bool) : String :=
  let tsType :=
    if goType = "string" then "string"
    else if goType = "int" || goType = "int8" || goType = "int16" ||
        goType = "int32" || goType = "int64" || goType = "uint" ||
        goType = "uint8" || goType = "uint16" || goType = "uint32" ||
        goType = "uint64" || goType = "float32" || goType = "float64" then
      "number"
    else if goType = "bool" then "boolean"
    else goType
  if isSlice then tsType ++ "[]" else tsType

/-- `isContextParam` from parse.go: the type expression is exactly
`*<pkg>.Context`, for any import alias. -/
def isContextParam : GoType → Bool
  | .star (.sel _ n) => n = "Context"
  | _ => false

/-- Go `strings.Trim(s, "`")`: remove leading and trailing backquotes. -/
def trimTicks (l : List Char) : List Char :=
  ((l.dropWhile (· = '`')).reverse.dropWhile (· = '`')).reverse

/-- The scan inside `jsonTagName`: find the first space-separated part
with prefix `json:"`, strip the prefix and the trailing quote, and cut at
the first comma (Go `strings.Cut(val, ",")`). -/
def jsonTagScan : List (List Char) → String
  | [] => ""
  | p :: ps =>
    if hasPre "json:\"".data p then
      let val := trimPreL "json:\"".data p
      let val := trimSufL "\"".data val
      String.mk (val.takeWhile (· ≠ ','))
    else jsonTagScan ps

/-- `jsonTagName` from parse.go, over the optional raw tag literal. -/
def jsonTagName (tag : Option String) : String :=
  match tag with
  | none => ""
  | some v => jsonTagScan (splitOnChar ' ' (trimTicks v.data))

/-- The per-field body of `extractStructs`: skip embedded fields, skip
unexported fields, apply the tag / `lcFirst` naming rule, drop `json:"-"`
fields, and map the type through `goTypeToTS`. -/
def extractField (f : FieldSrc) : Option StructField :=
  match f.names with
  | [] => none
  | fieldName :: _ =>
    if isExported fieldName then
      let tagName := jsonTagName f.tag
      let jsonName := if tagName = "" then lcFirst fieldName else tagName
      if jsonName = "-" then none
      else
        let r := resolveType f.typ
        some ⟨fieldName, jsonName, goTypeToTS r.1 r.2⟩
    else none

/-- `extractStructs` from parse.go, for one file, producing new bindings
in declaration order.  In the model the binding table is an association
list with the newest binding first, so prepending reproduces Go's
map-overwrite semantics under `List.lookup`. -/
def extractStructs (decls : List Decl) : List (String × StructDef) :=
  decls.foldl
    (fun acc d =>
      match d with
      | .typeStruct name fields =>
        (name, ⟨name, fields.filterMap extractField⟩) :: acc
      | _ => acc)
    []

/-- The struct-definition table of a directory: all files' tables merged,
later files (and later declarations) overriding earlier ones. -/
def structTable (parsed : List (String × List Decl)) :
    List (String × StructDef) :=
  parsed.foldl (fun acc f => extractStructs f.2 ++ acc) []

/-- `parseRouteFunc` from parse.go: requires a result list with exactly
one field whose resolved base type is a non-empty, non-slice,
non-primitive name; detects a leading `*<pkg>.Context` parameter; returns
the handler record together with the referenced type names. -/
def parseRouteFunc (fn : FuncSrc) : Option (RouteFunc × List String) :=
  match fn.results with
  | some [field] =>
    let r := resolveType field.typ
    if r.1 = "" || r.2 || isPrimitiveGoType r.1 then none
    else
      let hasContext :=
        match fn.params with
        | p :: _ => isContextParam p
        | [] => false
      some (⟨fn.name, r.1, hasContext⟩, [r.1])
  | _ => none

/-- The top-level, receiver-free functions of one file whose name is in
`routeFuncNames` (the candidates the parser feeds to `parseRouteFunc`). -/
def fileFuncDecls : GoSrcFile → List FuncSrc
  | .valid _ decls =>
    decls.filterMap fun d =>
      match d with
      | .funcD fn =>
        if fn.recv = false ∧ routeFuncNames fn.name then some fn else none
      | _ => none
  | .invalid => []

/-- All handler candidates of a directory, in file / declaration order. -/
def routeFuncCandidates (files : List GoSrcFile) : List FuncSrc :=
  files.flatMap fileFuncDecls

/-- The recorded handlers of a directory (the `funcs` slice built by
`parseRouteDir`). -/
def collectedFuncs (files : List GoSrcFile) : List RouteFunc :=
  (routeFuncCandidates files).filterMap fun fn =>
    (parseRouteFunc fn).map Prod.fst

/-- The referenced struct names of a directory, in collection order (the
keys inserted into `referencedStructs`). -/
def collectedRefs (files : List GoSrcFile) : List String :=
  (routeFuncCandidates files).flatMap fun fn =>
    match parseRouteFunc fn with
    | some (_, refs) => refs
    | none => []

/-- First-occurrence deduplication (the key set of a Go map in insertion
order). -/
def dedupAux : List String → List String → List String
  | [], _ => []
  | x :: xs, seen =>
    if seen.contains x then dedupAux xs seen
    else x :: dedupAux xs (x :: seen)

/-- First-occurrence deduplication of a list (the key set of a Go map in
insertion order). -/
def dedupKeepFirst (l : List String) : List String :=
  dedupAux l []

/-- The loop body of `resolveTransitiveStructs` from parse.go: a
breadth-first worklist over struct names.  A popped name already in the
result set is skipped; otherwise it is marked and, if it names a struct,
every field whose mapped type (with a `[]` suffix trimmed) names a known,
not-yet-marked struct is enqueued.  The fuel argument strictly bounds the
number of loop iterations; `closureFuel` below always suffices. -/
def closureLoop (allStructs : List (String × StructDef)) :
    Nat → List String → List String → List String
  | 0, _, result => result
  | _ + 1, [], result => result
  | n + 1, name :: queue, result =>
    if result.contains name then closureLoop allStructs n queue result
    else
      let result' := name :: result
      match allStructs.lookup name with
      | none => closureLoop allStructs n queue result'
      | some sd =>
        let enq := sd.Fields.filterMap fun f =>
          let typeName := trimSuf f.Typ "[]"
          if (allStructs.lookup typeName).isSome &&
              !(result'.contains typeName) then
            some typeName
          else none
        closureLoop allStructs n (queue ++ enq) result'

/-- A loop-iteration bound for `closureLoop`: every name is processed at
most once and each processing enqueues at most one name per field. -/
def closureFuel (allStructs : List (String × StructDef))
    (roots : List String) : Nat :=
  roots.length + 1 +
    allStructs.foldl (fun acc s => acc + 1 + s.2.Fields.length) 0

/-- `resolveTransitiveStructs` from parse.go (the result as a name set,
given in marking order). -/
def resolveTransitiveStructs (roots : List String)
    (allStructs : List (String × StructDef)) : List String :=
  closureLoop allStructs (closureFuel allStructs roots) roots []

/-- Split a directory's files into parse results, failing on the first
invalid file (`parser.ParseFile` error). -/
def parseFiles : List GoSrcFile → Option (List (String × List Decl))
  | [] => some []
  | .invalid :: _ => none
  | .valid p d :: rest => (parseFiles rest).map ((p, d) :: ·)

instance exceptDecEq {ε α : Type} [DecidableEq ε] [DecidableEq α] :
    DecidableEq (Except ε α) := fun a b =>
  match a, b with
  | .ok x, .ok y =>
    if h : x = y then .isTrue (congrArg Except.ok h)
    else .isFalse fun hc => h (Except.ok.inj hc)
  | .error x, .error y =>
    if h : x = y then .isTrue (congrArg Except.error h)
    else .isFalse fun hc => h (Except.error.inj hc)
  | .ok _, .error _ => .isFalse fun hc => Except.noConfusion hc
  | .error _, .ok _ => .isFalse fun hc => Except.noConfusion hc

/-- Errors of the embedded pipeline. -/
inductive GenErr where
  | parseErr (dir : String)
  | walkErr (dir : String)
  | fuelOut
  | nameConflict
  deriving DecidableEq, Repr

/-- `parseRouteDir` from parse.go, for the directory whose project-relative
key is `dirK`: parse every file (failing on the first syntax error),
collect the struct table and the recognized handlers, return `none` when
the directory declares no handler, and otherwise resolve the transitive
struct closure.  The `Structs` slice is enumerated in sorted name order
(the model's canonical stand-in for Go map iteration). -/
def parseRouteDir (dirK : String) (files : List GoSrcFile) :
    Except GenErr (Option RouteFile) :=
  match parseFiles files with
  | none => .error (.parseErr dirK)
  | some parsed =>
    match parsed with
    | [] => .ok none
    | (pkg, _) :: _ =>
      let funcs := collectedFuncs files
      if funcs = [] then .ok none
      else
        let structDefs := structTable parsed
        let roots := dedupKeepFirst (collectedRefs files)
        let allRefs := resolveTransitiveStructs roots structDefs
        let structs := (sortStrings allRefs).filterMap fun name =>
          structDefs.lookup name
        .ok (some ⟨dirK, pkg, funcs, structs⟩)

/-- The recognition criteria for a handler exactly as the code enforces
them: a result list with exactly one field whose resolved base type name
is non-empty, not a slice, and not a primitive Go type name.  (Written
independently of `parseRouteFunc` for the characterization lemma.) -/
def specHandlerOK (fn : FuncSrc) : Bool :=
  match fn.results with
  | some [field] =>
    let r := resolveType field.typ
    !(r.1 = "") && !r.2 && !(isPrimitiveGoType r.1)
  | _ => false

/-- Whether the first parameter is a `*<pkg>.Context`. -/
def funcHasCtx (fn : FuncSrc) : Bool :=
  match fn.params with
  | p :: _ => isContextParam p
  | [] => false

/-- The handler record a recognized function yields. -/
def mkHandler (fn : FuncSrc) : RouteFunc :=
  match fn.results with
  | some (field :: _) => ⟨fn.name, (resolveType field.typ).1, funcHasCtx fn⟩
  | _ => ⟨fn.name, "", funcHasCtx fn⟩

/-- Does any struct declaration of the directory contain a field whose
resolved Go base type is `t`? -/
def mentionsGoType (t : String) (files : List GoSrcFile) : Bool :=
  files.any fun f =>
    match f with
    | .valid _ decls =>
      decls.any fun d =>
        match d with
        | .typeStruct _ fields =>
          fields.any fun fld => (resolveType fld.typ).1 = t
        | _ => false
    | .invalid => false

/-- Does any file of the directory declare a struct type named `t`? -/
def declaresStruct (t : String) (files : List GoSrcFile) : Bool :=
  files.any fun f =>
    match f with
    | .valid _ decls =>
      decls.any fun d =>
        match d with
        | .typeStruct name _ => name = t
        | _ => false
    | .invalid => false

end codegen

/-! ## internal/codegen — TypeScript generation (typescript.go)

The repository snapshot contains only an outdated copy of this file (its
`GenerateDTS` still consumes the removed `RouteFunc.Params` shape and its
`Namespace` lacks the root sentinel asserted by the package's fuzz tests,
`FuzzNamespace` in fuzz_test.go).  The current `Namespace`,
`GenerateDTS`, `entryFileName` and `bundlePath` are therefore modelled
from the specification. -/

namespace codegen

/-- Capitalize the first character of a character list (`ucFirst`). -/
def ucFirstL : List Char → List Char
  | [] => []
  | c :: cs => c.toUpper :: cs

/-- Modelled from the spec: `Namespace` of typescript.go is missing from
the snapshot in its current form.  "The declaration block's name is
derived deterministically from the directory path (root → a fixed
sentinel name; otherwise the path with separators and dynamic-segment
markers stripped and each segment capitalized and concatenated)" — the
sentinel is `Main` (as the package's fuzz test asserts), the separators
are `/` and `.`, and the dynamic-segment marker is `$`. -/
def Namespace (dir : String) : String :=
  if dir = "." then "Main"
  else
    let segs := ((splitOnChar '/' dir.data).flatMap (splitOnChar '.')).map
      (List.filter (· ≠ '$'))
    String.mk (segs.flatMap ucFirstL)

/-- Concatenation of a list of strings. -/
def strConcat (l : List String) : String :=
  l.foldr (· ++ ·) ""

/-- Modelled from the spec: `GenerateDTS` of typescript.go is missing
from the snapshot in its current form.  "For one RouteFile, emit one
declaration block per TypeDefinition (field name → mapped type) followed
by one synthetic props declaration per handler describing its return
shape", inside a `declare namespace` block named by `Namespace`, with
the layout of the outdated snapshot copy. -/
def dtsFieldLine (f : StructField) : String :=
  "    " ++ f.JSONName ++ ": " ++ f.Typ ++ ";\n"

/-- One interface declaration block of the emitted `.d.ts` text. -/
def dtsStructBlock (sd : StructDef) : String :=
  "  " ++ ("interface " ++ sd.Name) ++
    (" \x7b\n" ++ strConcat (sd.Fields.map dtsFieldLine) ++ "  \x7d\n\n")

/-- One synthetic props declaration block of the emitted `.d.ts` text. -/
def dtsPropBlock (fn : RouteFunc) : String :=
  "  interface " ++ ((fn.Name ++ "Props") ++
    (" \x7b\n    data: " ++ fn.ReturnType ++ ";\n  \x7d\n"))

def GenerateDTS (rf : RouteFile) : String :=
  "// Code generated by rstf. DO NOT EDIT.\n\n" ++
    (("declare namespace " ++ Namespace rf.Dir) ++
      (" \x7b\n" ++ (strConcat (rf.Structs.map dtsStructBlock) ++
        (strConcat (rf.Funcs.map dtsPropBlock) ++ "\x7d\n"))))

end codegen

/-- A string containing neither brace character. -/
def braceFree (s : String) : Prop :=
  '{' ∉ s.data ∧ '}' ∉ s.data

instance (s : String) : Decidable (braceFree s) := by
  unfold braceFree
  infer_instance

/-! ## internal/codegen — TSX dependency analysis (imports.go)

A file path is a root-relative list of segments whose last element is the
file name.  A `.tsx` file's content is abstracted to the list of
relative-import specifiers `extractLocalImports` would extract from it (a
specifier `../../shared/x` is `⟨2, ["shared", "x"]⟩`).  The `fsCache` is
the pair of maps from imports.go; `invalidatePaths` is missing from the
snapshot and is modelled from the spec ("Invalidate the warm cache for
every changed path (so the next read is fresh)"): it evicts the file
entry of each changed path and the has-Go-file entry of its directory. -/

namespace codegen

/-- A relative import specifier: the number of leading `../` steps and
the remaining path segments (`./a/b` is `⟨0, ["a", "b"]⟩`). -/
structure Spec where
  ups : Nat
  segs : List String
  deriving DecidableEq, Repr

/-- The filesystem snapshot the codegen pipeline reads: the `.go`
directories (directory segments ↦ files in lexical name order) and the
`.tsx` files (path segments ↦ extracted import specifiers). -/
structure FS where
  goDirs : List (List String × List GoSrcFile)
  tsx : List (List String × List Spec)
  deriving DecidableEq, Repr

/-- `filepath.ToSlash(filepath.Rel(root, dir))`: the map key of a
directory — `"."` for the project root, the `/`-joined segments
otherwise. -/
def dirKey (segs : List String) : String :=
  if segs = [] then "." else joinSep "/" segs

/-- `dirHasGoFile` from imports.go: the directory holds at least one
`.go` file. -/
def dirHasGoFile (fs : FS) (d : List String) : Bool :=
  match fs.goDirs.lookup d with
  | some files => !files.isEmpty
  | none => false

/-- `filepath.Join(baseDir, "..")` iterated: each `../` drops the last
segment (clamped at the root). -/
def upDirs : Nat → List String → List String
  | 0, d => d
  | n + 1, d => upDirs n d.dropLast

/-- Append `.tsx` to the last segment of a path. -/
def withTsxExt : List String → Option (List String)
  | [] => none
  | [x] => some [x ++ ".tsx"]
  | x :: rest => (withTsxExt rest).map (x :: ·)

/-- `resolveImportPath` from imports.go: resolve `{specifier}.tsx` first,
then `{specifier}/index.tsx`; `none` when neither file exists. -/
def resolveImportPath (fs : FS) (baseDir : List String) (sp : Spec) :
    Option (List String) :=
  let abs := upDirs sp.ups baseDir ++ sp.segs
  let c2 := abs ++ ["index.tsx"]
  match withTsxExt abs with
  | some c1 =>
    if (fs.tsx.lookup c1).isSome then some c1
    else if (fs.tsx.lookup c2).isSome then some c2
    else none
  | none =>
    if (fs.tsx.lookup c2).isSome then some c2 else none

/-- `fsCache` from imports.go: memoized file contents and per-directory
has-Go-file booleans. -/
structure Cache where
  files : List (List String × List Spec)
  hasGo : List (List String × Bool)
  deriving DecidableEq, Repr

/-- `newFSCache` from imports.go. -/
def newFSCache : Cache :=
  ⟨[], []⟩

/-- `fsCache.readFile`: cached content, reading (successfully or not)
from the snapshot on a miss and writing back. -/
def cacheRead (c : Cache) (fs : FS) (p : List String) :
    Option (List Spec) × Cache :=
  match c.files.lookup p with
  | some content => (some content, c)
  | none =>
    match fs.tsx.lookup p with
    | some content => (some content, ⟨(p, content) :: c.files, c.hasGo⟩)
    | none => (none, c)

/-- `fsCache.dirHasGoFile`: cached boolean, computed and written back on
a miss. -/
def cacheHasGo (c : Cache) (fs : FS) (d : List String) : Bool × Cache :=
  match c.hasGo.lookup d with
  | some b => (b, c)
  | none =>
    let b := dirHasGoFile fs d
    (b, ⟨c.files, (d, b) :: c.hasGo⟩)

/-- Modelled from the spec: `fsCache.invalidatePaths` is missing from the
snapshot's imports.go.  "Invalidate the warm cache for every changed path
(so the next read is fresh)" — evict each changed path's file entry and
its containing directory's has-Go entry, leaving unrelated entries. -/
def invalidatePaths (c : Cache) (paths : List (List String)) : Cache :=
  ⟨c.files.filter (fun e => !(paths.contains e.1)),
   c.hasGo.filter (fun e => !(paths.map List.dropLast).contains e.1)⟩

/-- Insert a key into a Go map used as a set (no-op when present). -/
def insertKey (k : String) (l : List String) : List String :=
  if l.contains k then l else k :: l

/-- The mutable state of one `walkImports` traversal: the visited-file
set, the discovered Go-directory key set, and the optional shared
cache. -/
structure WalkSt where
  visited : List (List String)
  goDirs : List String
  cache : Option Cache
  deriving DecidableEq, Repr

/-- One step of the depth-first `walkImports` traversal, as an explicit
worklist (children are pushed in front, preserving depth-first order).
Each iteration pops one pending file: skip if visited, else mark it, read
it (through the cache when present), record its directory when that
directory has a `.go` file, and push its resolved imports.  The fuel
bounds the number of iterations; `walkFuel` below always suffices
(`analyzeDeps_no_fuelOut`). -/
def walkLoop (fs : FS) : Nat → List (List String) → WalkSt →
    Except GenErr WalkSt
  | 0, pending, st => if pending = [] then .ok st else .error .fuelOut
  | _ + 1, [], st => .ok st
  | n + 1, p :: rest, st =>
    if st.visited.contains p then walkLoop fs n rest st
    else
      let visited' := p :: st.visited
      let rc :=
        match st.cache with
        | some c =>
          let r := cacheRead c fs p
          (r.1, some r.2)
        | none => (fs.tsx.lookup p, none)
      match rc.1 with
      | none => .error (.walkErr (dirKey p.dropLast))
      | some specs =>
        let dir := p.dropLast
        let hg :=
          match rc.2 with
          | some c =>
            let r := cacheHasGo c fs dir
            (r.1, some r.2)
          | none => (dirHasGoFile fs dir, none)
        let goDirs' :=
          if hg.1 then insertKey (dirKey dir) st.goDirs else st.goDirs
        let children := specs.filterMap (resolveImportPath fs dir)
        walkLoop fs n (children ++ rest) ⟨visited', goDirs', hg.2⟩

/-- The total worklist cost of the not-yet-visited entries of a file
table: processing an entry costs one iteration plus one pending child
per specifier. -/
def entryWeight (l : List (List String × List Spec))
    (visited : List (List String)) : Nat :=
  ((l.filter fun e => !(visited.contains e.1)).map
    fun e => 1 + e.2.length).sum

/-- The remaining potential of a walk over the snapshot. -/
def pendWeight (fs : FS) (visited : List (List String)) : Nat :=
  entryWeight fs.tsx visited

/-- An iteration bound for `walkLoop` starting from one entry file. -/
def walkFuel (fs : FS) : Nat :=
  2 + pendWeight fs []

/-- `AnalyzeDeps` from imports.go: walk the import graph from the entry
file and return the sorted list of discovered Go-directory keys, along
with the updated cache. -/
def AnalyzeDeps (fs : FS) (entryPath : List String) (cache : Option Cache) :
    Except GenErr (List String × Option Cache) :=
  match walkLoop fs (walkFuel fs) [entryPath] ⟨[], [], cache⟩ with
  | .error e => .error e
  | .ok st => .ok (sortStrings st.goDirs, st.cache)

/-- A cache entry never contradicts the snapshot: every cached file
content and has-Go boolean is what a fresh read would produce. -/
def cacheAgrees (c : Cache) (fs : FS) : Prop :=
  (∀ p content, c.files.lookup p = some content →
    fs.tsx.lookup p = some content)
  ∧ (∀ d b, c.hasGo.lookup d = some b → dirHasGoFile fs d = b)

/-- Agreement for an optional cache (`none` agrees trivially). -/
def cacheAgreesO : Option Cache → FS → Prop
  | none, _ => True
  | some c, fs => cacheAgrees c fs

/-- A returned directory key is the key of a directory holding a `.go`
file. -/
def goDirOK (fs : FS) (k : String) : Prop :=
  ∃ d, k = dirKey d ∧ dirHasGoFile fs d = true

end codegen

/-! ## internal/codegen — server entry-point generation (server.go)

`fmt`'s `%q` is modelled as plain quoting (the quoted values are import
paths, aliases and directory keys, which contain no characters needing
escapes).  `entryFileName` and `bundlePath` live in the missing
typescript.go and are modelled from the spec's generated-layout contract
(per-route file names flatten separators and dynamic markers to hyphens,
with the root mapped to the sentinel name `main`; the bundler emits
`.rstf/static/{name}/bundle.js`). -/

namespace codegen

/-- `frameworkModule` from server.go. -/
def frameworkModule : String :=
  "github.com/rafbgarcia/rstf"

/-- `serverImport` from server.go. -/
structure serverImport where
  Alias : String
  ImportPath : String
  Dir : String
  HasContext : Bool
  deriving DecidableEq, Repr

/-- `routeEntry` from server.go. -/
structure routeEntry where
  dir : String
  folderName : String
  urlPattern : String
  deriving DecidableEq, Repr

/-- The `fileMap` built by `GenerateServer` (`fileMap[f.Dir] = f` with
later entries overriding earlier ones). -/
def fileMap (files : List RouteFile) (d : String) : Option RouteFile :=
  files.reverse.find? fun f => f.Dir == d

/-- Build one `routeEntry` from a route directory. -/
def routeEntryOf (dir : String) : routeEntry :=
  let folder := trimPre dir "routes/"
  ⟨dir, folder, conventions.FolderToURLPattern folder⟩

/-- The route list of `GenerateServer`: route directories found by the
parser, then routes that appear only in the dependency map (TSX-only
routes). -/
def buildRoutes (files : List RouteFile)
    (deps : List (String × List String)) : List routeEntry :=
  let fromFiles := (files.filter fun f => conventions.IsRouteDir f.Dir).map
    fun f => routeEntryOf f.Dir
  let routeSet := fromFiles.map routeEntry.dir
  fromFiles ++ deps.filterMap fun e =>
    if !(routeSet.contains e.1) && conventions.IsRouteDir e.1 then
      some (routeEntryOf e.1)
    else none

/-- Insertion step of the by-URL-pattern route sort. -/
def insertRoute (r : routeEntry) : List routeEntry → List routeEntry
  | [] => [r]
  | x :: xs =>
    if strLe r.urlPattern x.urlPattern then r :: x :: xs
    else x :: insertRoute r xs

/-- `sort.Slice(routes, …urlPattern…)` (as a deterministic insertion
sort; URL patterns of distinct route folders coincide only in the exotic
`routes/a.b` vs `routes/a/b` case). -/
def sortRoutes (l : List routeEntry) : List routeEntry :=
  l.foldr insertRoute []

/-- Decimal digit. -/
def digitChar (n : Nat) : Char :=
  Char.ofNat (48 + n)

/-- Decimal digits of `n` (fuel-bounded; `n + 1` steps always
suffice). -/
def natDigits : Nat → Nat → List Char
  | 0, _ => []
  | fuel + 1, n =>
    if n < 10 then [digitChar n]
    else natDigits fuel (n / 10) ++ [digitChar (n % 10)]

/-- Decimal rendering of a natural number (Go `fmt …%d`). -/
def natToStr (n : Nat) : String :=
  String.mk (natDigits (n + 1) n)

/-- Update or add an association-list binding. -/
def setAssoc (k : String) (v : Nat) :
    List (String × Nat) → List (String × Nat)
  | [] => [(k, v)]
  | (k', v') :: rest =>
    if k' = k then (k, v) :: rest else (k', v') :: setAssoc k v rest

/-- The mutable state of `collectImports`: the seen-directory set, the
used-alias counters, and the import slice. -/
structure ImpSt where
  seen : List String
  used : List (String × Nat)
  imports : List serverImport
  deriving DecidableEq, Repr

/-- The `addImport` closure of `collectImports`: skip seen directories,
skip directories without a parsed `RouteFile`, compute the import path
and base alias (root → module path with alias `app`; `$`-directories →
the sanitized `.rstf/pkgs` symlink path), and resolve alias collisions
with a numeric suffix. -/
def addImport (modulePath : String) (fm : String → Option RouteFile)
    (st : ImpSt) (dir : String) : ImpSt :=
  if st.seen.contains dir then st
  else
    let seen' := dir :: st.seen
    match fm dir with
    | none => ⟨seen', st.used, st.imports⟩
    | some rf =>
      let ipa :=
        if dir = "." then (modulePath, "app")
        else if dir.data.contains '$' then
          (modulePath ++ "/.rstf/pkgs/" ++ stripChar '$' dir, rf.Package)
        else (modulePath ++ "/" ++ dir, rf.Package)
      let als :=
        match st.used.lookup ipa.2 with
        | some c => ipa.2 ++ natToStr (c + 1)
        | none => ipa.2
      let used' := setAssoc ipa.2 ((st.used.lookup ipa.2).getD 0 + 1) st.used
      let hasCtx :=
        match rf.Funcs with
        | f :: _ => f.HasContext
        | [] => false
      ⟨seen', used', st.imports ++ [⟨als, ipa.1, dir, hasCtx⟩]⟩

/-- `collectImports` from server.go: the layout first, then each sorted
route's package and its dependency directories. -/
def collectImports (modulePath : String) (hasLayout : Bool)
    (routes : List routeEntry) (deps : List (String × List String))
    (fm : String → Option RouteFile) : List serverImport :=
  let st0 : ImpSt := ⟨[], [], []⟩
  let st1 := if hasLayout then addImport modulePath fm st0 "." else st0
  let st2 := routes.foldl
    (fun st r =>
      let st' := addImport modulePath fm st r.dir
      ((deps.lookup r.dir).getD []).foldl
        (fun s d => addImport modulePath fm s d) st')
    st1
  st2.imports

/-- Go-source string quoting (`%q`, escaping elided — see the section
comment). -/
def goQuote (s : String) : String :=
  "\"" ++ s ++ "\""

/-- `ssrCall` from server.go. -/
def ssrCall (als : String) (hasContext : Bool) : String :=
  if hasContext then "structToMap(" ++ als ++ ".SSR(ctx))"
  else "structToMap(" ++ als ++ ".SSR())"

/-- Modelled from the spec: the hydration-entry base name of a route
directory (missing typescript.go): separators and dynamic markers
flattened to hyphens, the root mapped to the sentinel `main`. -/
def entryName (dir : String) : String :=
  if dir = "." then "main"
  else replChar '/' '-' (replChar '.' '-' (stripChar '$' (trimPre dir "routes/")))

/-- Modelled from the spec: the per-route hydration entry file name
(missing typescript.go; the bundler strips the `.entry.tsx` suffix). -/
def entryFileName (dir : String) : String :=
  entryName dir ++ ".entry.tsx"

/-- Modelled from the spec: the served bundle path for a route (missing
typescript.go; the bundler writes `.rstf/static/{name}/bundle.js`). -/
def bundlePath (dir : String) : String :=
  "/.rstf/static/" ++ entryName dir ++ "/bundle.js"

/-- The per-route server-data entries built at the top of `writeMain`'s
route loop: the layout first (key `main`) when a layout with handlers
exists, then one entry per dependency directory of the route, skipping
the layout directory `.` and directories without an import. -/
def sdEntries (hasLayout : Bool) (layout : RouteFile)
    (aliasM : String → Option serverImport)
    (deps : List (String × List String)) (routeDir : String) :
    List (String × String) :=
  let layoutPart :=
    if hasLayout ∧ layout.Funcs ≠ [] then
      let imp := (aliasM ".").getD ⟨"", "", "", false⟩
      [("main", ssrCall imp.Alias imp.HasContext)]
    else []
  let depsPart := ((deps.lookup routeDir).getD []).filterMap fun depDir =>
    if depDir = "." then none
    else
      match aliasM depDir with
      | none => none
      | some imp => some (depDir, ssrCall imp.Alias imp.HasContext)
  layoutPart ++ depsPart

/-- `writeHeader` from server.go. -/
def writeHeader : String :=
  "// Code generated by rstf. DO NOT EDIT.\npackage main\n\n"

/-- `writeImports` from server.go. -/
def writeImports (imports : List serverImport) : String :=
  "import (\n" ++
    "\t\"encoding/json\"\n\t\"flag\"\n\t\"fmt\"\n\t\"net/http\"\n" ++
    "\t\"os\"\n\t\"os/signal\"\n\t\"strings\"\n\t\"syscall\"\n\n" ++
    "\trstf " ++ goQuote frameworkModule ++ "\n" ++
    "\t" ++ goQuote (frameworkModule ++ "/renderer") ++ "\n\n" ++
    strConcat (imports.map fun imp =>
      "\t" ++ imp.Alias ++ " " ++ goQuote imp.ImportPath ++ "\n") ++
    ")\n\n"

/-- `writeStructToMap` from server.go (the literal helper source). -/
def writeStructToMap : String :=
  "func structToMap(v any) map[string]any " ++ "\x7b\n" ++
    "\tb, _ := json.Marshal(v)\n\tvar m map[string]any\n" ++
    "\tjson.Unmarshal(b, &m)\n\treturn m\n" ++ "\x7d\n\n"

/-- `writeAssemblePage` from server.go (the literal helper source). -/
def writeAssemblePage : String :=
  "func assemblePage(html string, serverData map[string]map[string]any, bundlePath string) string " ++
    "\x7b\n\t...\n\x7d\n\n"

/-- One route's handler-registration block inside `writeMain`. -/
def routeBlock (hasLayout : Bool) (layout : RouteFile)
    (aliasM : String → Option serverImport)
    (deps : List (String × List String)) (route : routeEntry) : String :=
  let es := sdEntries hasLayout layout aliasM deps route.dir
  "\n\thttp.HandleFunc(\"GET " ++ route.urlPattern ++
    "\", func(w http.ResponseWriter, req *http.Request) " ++ "\x7b\n" ++
    "\t\tctx := rstf.NewContext(req)\n\n" ++
    "\t\tsd := map[string]map[string]any" ++ "\x7b\n" ++
    strConcat (es.map fun e =>
      "\t\t\t" ++ goQuote e.1 ++ ": " ++ e.2 ++ ",\n") ++
    "\t\t\x7d\n\n" ++
    "\t\thtml, err := r.Render(renderer.RenderRequest\x7b\n" ++
    "\t\t\tComponent: " ++ goQuote route.dir ++ ",\n" ++
    "\t\t\tLayout:    \"main\",\n" ++
    (if es ≠ [] then "\t\t\tServerData: sd,\n" else "") ++
    "\t\t\x7d)\n\t\tif err != nil \x7b\n\t\t\thttp.Error(w, err.Error(), 500)\n\t\t\treturn\n\t\t\x7d\n" ++
    "\t\tfmt.Fprint(w, assemblePage(html, sd, " ++
    goQuote (bundlePath route.dir) ++ "))\n\t\x7d)\n"

/-- `writeMain` from server.go. -/
def writeMain (routes : List routeEntry) (layout : RouteFile)
    (hasLayout : Bool) (aliasM : String → Option serverImport)
    (deps : List (String × List String)) : String :=
  "func main() \x7b\n\t...\n" ++
    strConcat (routes.map (routeBlock hasLayout layout aliasM deps)) ++
    "\n\thttp.ListenAndServe(\":\"+*port, nil)\n\x7d\n"

/-- `GenerateServer` from server.go: reject a layout package named
`main`, sort the routes by URL pattern, collect collision-free imports
and assemble the server source text. -/
def GenerateServer (modulePath : String) (files : List RouteFile)
    (deps : List (String × List String)) : Except GenErr String :=
  let fm := fileMap files
  let layoutO := fm "."
  let hasLayout := layoutO.isSome
  let layout := layoutO.getD ⟨"", "", [], []⟩
  if hasLayout ∧ layout.Package = "main" then .error .nameConflict
  else
    let routes := sortRoutes (buildRoutes files deps)
    let imports := collectImports modulePath hasLayout routes deps fm
    let aliasM := fun d => imports.find? fun i => i.Dir == d
    .ok (writeHeader ++ writeImports imports ++ writeStructToMap ++
      writeAssemblePage ++ writeMain routes layout hasLayout aliasM deps)

end codegen

/-! ## internal/codegen — incremental generation (generate.go)

The persisted `Generator` state and its two entry points `Generate`
(full rebuild) and `Regenerate` (incremental, driven by change events).
Disk effects (directory creation, DTS/runtime/entry/server writes,
symlinks, `ensureDeps`) are not modelled; the model tracks exactly the
persisted in-memory state those functions update.  Go map iteration is
canonicalized to sorted key order, maps themselves to key-sorted
association lists, and the parallel `AnalyzeDeps` jobs to a sequential
fold threading the shared cache (the shared-cache reads commute:
`walkLoop_cache` below shows an agreeing cache never changes a walk's
output). -/

namespace codegen

/-- Lexicographic order on segment lists, via the byte order `strLt` on
segments. -/
def segLt : List String → List String → Bool
  | [], [] => false
  | [], _ :: _ => true
  | _ :: _, [] => false
  | a :: as, b :: bs =>
    if strLt a b then true else if strLt b a then false else segLt as bs

/-- Update-or-insert into an association list kept sorted by the strict
key order `lt` (a Go map write, in canonical form). -/
def upsertBy {K α : Type} [DecidableEq K] (lt : K → K → Bool) (k : K)
    (v : α) : List (K × α) → List (K × α)
  | [] => [(k, v)]
  | (k', v') :: rest =>
    if lt k k' then (k, v) :: (k', v') :: rest
    else if k = k' then (k, v) :: rest
    else (k', v') :: upsertBy lt k v rest

/-- Delete a key from an association list (a Go map `delete`). -/
def deleteBy {K α : Type} [DecidableEq K] (k : K) :
    List (K × α) → List (K × α)
  | [] => []
  | (k', v') :: rest =>
    if k' = k then rest else (k', v') :: deleteBy k rest

/-- The keys of an association list are strictly increasing for `lt`
(the canonical form of a Go map). -/
def pwLt {K α : Type} (lt : K → K → Bool) (l : List (K × α)) : Prop :=
  l.Pairwise fun a b => lt a.1 b.1 = true

/-- `ChangeEvent` from generate.go (the path is root-relative, in
segments). -/
structure ChangeEvent where
  Path : List String
  Kind : String
  deriving DecidableEq, Repr

/-- The directory names pruned by `ParseDir`'s walk. -/
def prunedName (s : String) : Bool :=
  s = ".rstf" || s = ".git" || s = "node_modules" || s = "vendor"

/-- A directory skipped by `ParseDir` (some segment is a pruned name). -/
def prunedDir (d : List String) : Bool :=
  d.any prunedName

/-- `ParseSingleDir` from parse.go: `nil` for a missing or `.go`-less
directory, else `parseRouteDir` on the directory's files.  Note: no
pruned-name check — unlike `ParseDir`'s walk. -/
def ParseSingleDir (fs : FS) (d : List String) :
    Except GenErr (Option RouteFile) :=
  match fs.goDirs.lookup d with
  | none => .ok none
  | some files =>
    if files.isEmpty then .ok none else parseRouteDir (dirKey d) files

/-- The fold of `ParseDir` over the walked directories: parse each
non-pruned directory holding `.go` files, accumulating the parsed-file
table in canonical (key-sorted) form. -/
def parseDirAux (l : List (List String × List GoSrcFile))
    (acc : List (List String × RouteFile)) :
    Except GenErr (List (List String × RouteFile)) :=
  match l with
  | [] => .ok acc
  | (d, files) :: rest =>
    if prunedDir d || files.isEmpty then parseDirAux rest acc
    else
      match parseRouteDir (dirKey d) files with
      | .error e => .error e
      | .ok none => parseDirAux rest acc
      | .ok (some rf) => parseDirAux rest (upsertBy segLt d rf acc)

/-- `ParseDir` from parse.go: walk the project (pruning `.rstf`, `.git`,
`node_modules` and `vendor`), parse every directory holding `.go` files,
and return the parsed-file table keyed by directory. -/
def ParseDir (fs : FS) : Except GenErr (List (List String × RouteFile)) :=
  parseDirAux fs.goDirs []

/-- `discoverTSXRouteDirs` from generate.go: the `routes/{name}`
directories holding an `index.tsx`, in `os.ReadDir`'s lexical name
order. -/
def discoverTSXRouteDirs (fs : FS) : List (List String) :=
  (sortStrings (dedupKeepFirst (fs.tsx.filterMap fun e =>
    match e.1 with
    | ["routes", n, "index.tsx"] => some n
    | _ => none))).map fun n => ["routes", n]

/-- The `depJobs` collection shared by `Generate` and `Regenerate`: the
parsed route directories holding an `index.tsx`, then the TSX-only
route directories not already seen. -/
def depJobsOf (fs : FS) (pairs : List (List String × RouteFile)) :
    List (List String) :=
  let jobs1 := pairs.filterMap fun e =>
    if conventions.IsRouteDir (dirKey e.1)
        && (fs.tsx.lookup (e.1 ++ ["index.tsx"])).isSome then
      some e.1
    else none
  jobs1 ++ (discoverTSXRouteDirs fs).filter fun d => !(jobs1.contains d)

/-- The `AnalyzeDeps` job loop of `Generate`/`Regenerate`, threading the
shared cache (the parallel jobs canonicalized to a sequential fold):
returns the first error with the state reached, or the dependency map in
canonical form plus the warmed cache. -/
def analyzeAll (fs : FS) :
    List (List String) → List (String × List String) → Option Cache →
    Option GenErr × List (String × List String) × Option Cache
  | [], acc, c => (none, acc, c)
  | d :: rest, acc, c =>
    match AnalyzeDeps fs (d ++ ["index.tsx"]) c with
    | .error e => (some e, acc, c)
    | .ok (ds, c') => analyzeAll fs rest (upsertBy strLt (dirKey d) ds acc) c'

/-- `Generate`'s hydration-entry table: one entry per route directory of
the dependency map, valued by its entry file name (the `.rstf/entries`
prefix of the absolute path is constant and omitted). -/
def mkEntries (deps : List (String × List String)) :
    List (String × String) :=
  deps.filterMap fun e =>
    if conventions.IsRouteDir e.1 then some (e.1, entryFileName e.1)
    else none

/-- `depsEqual` from generate.go. -/
def depsEqual : List String → List String → Bool
  | [], [] => true
  | a :: as, b :: bs => if a = b then depsEqual as bs else false
  | _, _ => false

/-- `Regenerate`'s hydration-entry rebuild (step 8): keep the previous
entry when the route's dependencies are unchanged and an entry existed,
else (re)generate it. -/
def regenEntries (oldDeps : List (String × List String))
    (oldEntries : List (String × String))
    (newDeps : List (String × List String)) : List (String × String) :=
  newDeps.filterMap fun e =>
    if conventions.IsRouteDir e.1 then
      let od := (oldDeps.lookup e.1).getD []
      let oe := (oldEntries.lookup e.1).getD ""
      if !(depsEqual od e.2) || oe = "" then some (e.1, entryFileName e.1)
      else some (e.1, oe)
    else none

/-- The persisted state of a `Generator` (generate.go): the parsed-file
table, the dependency map, the hydration-entry table, the previous
server-entry text, and the shared filesystem cache. -/
structure GenState where
  filesByDir : List (List String × RouteFile)
  deps : List (String × List String)
  entries : List (String × String)
  prevServerCode : String
  cache : Option Cache
  deriving DecidableEq, Repr

/-- `Generator.Generate` from generate.go (the persisted-state slice):
parse the whole tree, analyze every route's dependencies with a fresh
shared cache, generate the server text, and persist everything. -/
def generate (fs : FS) (modulePath : String) : Except GenErr GenState :=
  match ParseDir fs with
  | .error e => .error e
  | .ok pairs =>
    match analyzeAll fs (depJobsOf fs pairs) [] (some newFSCache) with
    | (some e, _, _) => .error e
    | (none, deps, cache2) =>
      match GenerateServer modulePath (pairs.map Prod.snd) deps with
      | .error e => .error e
      | .ok code => .ok ⟨pairs, deps, mkEntries deps, code, cache2⟩

/-- First-occurrence deduplication of segment lists (the key set of a Go
map, in canonical first-insertion order). -/
def dedupSegsAux : List (List String) → List (List String) →
    List (List String)
  | [], _ => []
  | x :: xs, seen =>
    if x ∈ seen then dedupSegsAux xs seen
    else x :: dedupSegsAux xs (x :: seen)

/-- First-occurrence deduplication of a segment-list list. -/
def dedupSegs (l : List (List String)) : List (List String) :=
  dedupSegsAux l []

/-- `Regenerate` step 1: the distinct directories of the `go`-kind
events. -/
def goChangedDirsOf (events : List ChangeEvent) : List (List String) :=
  dedupSegs (events.filterMap fun ev =>
    if ev.Kind = "go" then some ev.Path.dropLast else none)

/-- `Regenerate` step 3: re-parse each Go-changed directory, upserting
or deleting its parsed-file-table row, stopping at the first parse
error (with the table mutations performed so far kept). -/
def applyGoDirs (fs : FS) :
    List (List String) → List (List String × RouteFile) →
    Option GenErr × List (List String × RouteFile)
  | [], pairs => (none, pairs)
  | d :: rest, pairs =>
    match ParseSingleDir fs d with
    | .error e => (some e, pairs)
    | .ok none => applyGoDirs fs rest (deleteBy d pairs)
    | .ok (some rf) => applyGoDirs fs rest (upsertBy segLt d rf pairs)

/-- `Generator.Regenerate` from generate.go (the persisted-state slice):
invalidate the cache for the changed paths, re-parse the Go-changed
directories, re-analyze all routes' dependencies over the warm cache,
rebuild the entry table, regenerate the server text, and persist — the
first component reports the first error, the second the Generator state
as left behind by the call (mutations up to the error point included). -/
def regenerate (fs : FS) (modulePath : String) (st : GenState)
    (events : List ChangeEvent) : Option GenErr × GenState :=
  match applyGoDirs fs (goChangedDirsOf events) st.filesByDir with
  | (some e, pairs1) =>
    (some e,
      { st with
          filesByDir := pairs1,
          cache := (st.cache.map fun c =>
            invalidatePaths c (events.map ChangeEvent.Path)) })
  | (none, pairs1) =>
    match analyzeAll fs (depJobsOf fs pairs1) []
      (st.cache.map fun c =>
        invalidatePaths c (events.map ChangeEvent.Path)) with
    | (some e, _, c2) =>
      (some e, { st with filesByDir := pairs1, cache := c2 })
    | (none, newDeps, c2) =>
      match GenerateServer modulePath (pairs1.map Prod.snd) newDeps with
      | .error e =>
        (some e, { st with filesByDir := pairs1, cache := c2 })
      | .ok code =>
        (none, ⟨pairs1, newDeps, regenEntries st.deps st.entries newDeps,
          code, c2⟩)

/-- Apply a sequence of batches: each batch is the source tree after
that batch's edits together with the watcher events reporting them;
stop at the first failing `Regenerate`. -/
def applyBatches (modulePath : String) :
    List (FS × List ChangeEvent) → GenState → Option GenErr × GenState
  | [], st => (none, st)
  | (fs, evs) :: rest, st =>
    match regenerate fs modulePath st evs with
    | (some e, st') => (some e, st')
    | (none, st') => applyBatches modulePath rest st'

/-- The final source tree of a batch sequence. -/
def lastFS : FS → List (FS × List ChangeEvent) → FS
  | fs0, [] => fs0
  | _, b :: rest => lastFS b.1 rest

/-- No duplicate keys (executable). -/
def nodupSegKeys : List (List String) → Bool
  | [] => true
  | x :: xs => if x ∈ xs then false else nodupSegKeys xs

/-- A well-formed snapshot: the directory and file tables have no
duplicate keys (they model Go maps). -/
def wfFS (fs : FS) : Bool :=
  nodupSegKeys (fs.goDirs.map Prod.fst)
    && nodupSegKeys (fs.tsx.map Prod.fst)

/-- The `go` events of a batch cover every directory whose `.go` file
set differs between the two trees. -/
def goCovered (fsPrev fs : FS) (dirs : List (List String)) : Bool :=
  (fsPrev.goDirs.map Prod.fst ++ fs.goDirs.map Prod.fst).all fun d =>
    decide (d ∈ dirs)
      || decide (fsPrev.goDirs.lookup d = fs.goDirs.lookup d)

/-- The events of a batch cover every component file whose content (or
existence) differs between the two trees. -/
def tsxCovered (fsPrev fs : FS) (paths : List (List String)) : Bool :=
  (fsPrev.tsx.map Prod.fst ++ fs.tsx.map Prod.fst).all fun p =>
    decide (p ∈ paths)
      || decide (fsPrev.tsx.lookup p = fs.tsx.lookup p)

/-- A compatible batch: the new tree is well formed, no changed `go`
directory carries a pruned name, and the events cover exactly the `go`
and component differences between the trees. -/
def eventsOK (fsPrev fs : FS) (events : List ChangeEvent) : Bool :=
  wfFS fs
    && (goChangedDirsOf events).all (fun d => !(prunedDir d))
    && goCovered fsPrev fs (goChangedDirsOf events)
    && tsxCovered fsPrev fs (events.map ChangeEvent.Path)

/-- Every batch of the sequence is compatible with its predecessor
tree. -/
def batchesOK : FS → List (FS × List ChangeEvent) → Bool
  | _, [] => true
  | fsPrev, (fs, evs) :: rest => eventsOK fsPrev fs evs && batchesOK fs rest

/-- Project the state out of a successful pipeline result. -/
def getSt : Except GenErr GenState → GenState
  | .ok st => st
  | .error _ => ⟨[], [], [], "", none⟩

/-- A root layout `.go` file: package `app`, a `ServerData` struct and an
`SSR` handler returning it. -/
def rootGoFileApp : GoSrcFile :=
  .valid "app"
    [.typeStruct "ServerData" [⟨["N"], none, .ident "int"⟩],
     .funcD ⟨"SSR", false, [], some [⟨[], .ident "ServerData"⟩]⟩]

/-- The same root layout file after an edit renaming its package to
`main` (which `GenerateServer` rejects). -/
def rootGoFileMain : GoSrcFile :=
  .valid "main"
    [.typeStruct "ServerData" [⟨["N"], none, .ident "int"⟩],
     .funcD ⟨"SSR", false, [], some [⟨[], .ident "ServerData"⟩]⟩]

/-- A one-directory project: the root layout only. -/
def fsC2a : FS :=
  ⟨[([], [rootGoFileApp])], []⟩

/-- The same project after the package rename. -/
def fsC2b : FS :=
  ⟨[([], [rootGoFileMain])], []⟩

/-- A `.go` file under `vendor/`, declaring route handlers. -/
def vendorGoFile : GoSrcFile :=
  .valid "tool"
    [.typeStruct "ServerData" [⟨["N"], none, .ident "int"⟩],
     .funcD ⟨"SSR", false, [], some [⟨[], .ident "ServerData"⟩]⟩]

/-- The root-layout project after a `.go` file appears under
`vendor/tool/`. -/
def fsC1b : FS :=
  ⟨[([], [rootGoFileApp]), (["vendor", "tool"], [vendorGoFile])], []⟩

/-- A cache entry is sound for a snapshot: every stored row holds what a
fresh read of the snapshot produces. -/
def cacheSound (c : Cache) (fs : FS) : Prop :=
  (∀ e ∈ c.files, fs.tsx.lookup e.1 = some e.2)
    ∧ ∀ e ∈ c.hasGo, dirHasGoFile fs e.1 = e.2

/-- Soundness for an optional cache. -/
def cacheSoundO : Option Cache → FS → Prop
  | none, _ => True
  | some c, fs => cacheSound c fs

/-- The parsed-file-table row a directory contributes to a full
`ParseDir`: `none` when pruned, `.go`-less, handler-less (or failing —
which aborts the whole parse). -/
def parsedRow (d : List String) (files : List GoSrcFile) :
    Option RouteFile :=
  if prunedDir d || files.isEmpty then none
  else
    match parseRouteDir (dirKey d) files with
    | .ok (some rf) => some rf
    | _ => none

/-- The four persisted outputs (everything but the cache) coincide. -/
def eqCore (a b : GenState) : Prop :=
  a.filesByDir = b.filesByDir ∧ a.deps = b.deps ∧ a.entries = b.entries
    ∧ a.prevServerCode = b.prevServerCode

/-- A `routes/a` handler file. -/
def routeAGoFile : GoSrcFile :=
  .valid "a"
    [.typeStruct "ServerData" [⟨["N"], none, .ident "int"⟩],
     .funcD ⟨"SSR", false, [], some [⟨[], .ident "ServerData"⟩]⟩]

/-- The same handler file after an edit (different field). -/
def routeAGoFile2 : GoSrcFile :=
  .valid "a"
    [.typeStruct "ServerData" [⟨["M"], none, .ident "string"⟩],
     .funcD ⟨"SSR", false, [], some [⟨[], .ident "ServerData"⟩]⟩]

/-- A project with a root layout and one `routes/a` route (Go handler
plus component). -/
def fsC1w0 : FS :=
  ⟨[([], [rootGoFileApp]), (["routes", "a"], [routeAGoFile])],
   [(["routes", "a", "index.tsx"], [])]⟩

/-- The same project after editing the `routes/a` handler file. -/
def fsC1w1 : FS :=
  ⟨[([], [rootGoFileApp]), (["routes", "a"], [routeAGoFile2])],
   [(["routes", "a", "index.tsx"], [])]⟩

end codegen

lemma char_lt_iff_toNat_lt (a b : Char) : a < b ↔ a.toNat < b.toNat := by
  constructor
  · intro h
    exact h
  · intro h
    exact h

lemma listCharLt_iff_lt :
    ∀ x y : List Char, listCharLt x y = true ↔ x < y := by
  intro x
  induction x with
  | nil =>
    intro y
    cases y with
    | nil =>
      simp only [listCharLt, Bool.false_eq_true, false_iff]
      intro h
      cases h
    | cons b bs =>
      simp only [listCharLt, true_iff]
      exact List.Lex.nil
  | cons a as ih =>
    intro y
    cases y with
    | nil =>
      simp only [listCharLt, Bool.false_eq_true, false_iff]
      intro h
      cases h
    | cons b bs =>
      simp only [listCharLt]
      by_cases hab : a.toNat < b.toNat
      · rw [if_pos hab]
        simp only [true_iff]
        exact List.Lex.rel ((char_lt_iff_toNat_lt a b).mpr hab)
      · rw [if_neg hab]
        by_cases hba : b.toNat < a.toNat
        · rw [if_pos hba]
          simp only [Bool.false_eq_true, false_iff]
          intro h
          cases h with
          | cons h' => exact absurd hba (lt_irrefl _)
          | rel h' => exact hab ((char_lt_iff_toNat_lt a b).mp h')
        · rw [if_neg hba]
          have heq : a = b :=
            le_antisymm
              (not_lt.mp fun hc => hba ((char_lt_iff_toNat_lt b a).mp hc))
              (not_lt.mp fun hc => hab ((char_lt_iff_toNat_lt a b).mp hc))
          subst heq
          constructor
          · intro h
            exact List.Lex.cons ((ih bs).mp h)
          · intro h
            cases h with
            | cons h' => exact (ih bs).mpr h'
            | rel h' => exact absurd ((char_lt_iff_toNat_lt a a).mp h') hab

lemma strLt_iff_lt (s t : String) : strLt s t = true ↔ s < t := by
  rw [String.lt_iff_toList_lt]
  exact listCharLt_iff_lt s.data t.data

lemma strLe_iff_le (s t : String) : strLe s t = true ↔ s ≤ t := by
  unfold strLe
  rw [Bool.not_eq_true']
  rw [← not_lt]
  constructor
  · intro h hc
    exact absurd ((strLt_iff_lt t s).mpr hc) (by simp [h])
  · intro h
    by_contra hc
    exact h ((strLt_iff_lt t s).mp (by
      cases hb : strLt t s
      · exact absurd hb hc
      · rfl))

lemma insertSorted_eq_orderedInsert (x : String) (l : List String) :
    insertSorted x l = l.orderedInsert (· ≤ ·) x := by
  induction l with
  | nil => rfl
  | cons y ys ih =>
    simp only [insertSorted, List.orderedInsert]
    by_cases h : x ≤ y
    · rw [if_pos ((strLe_iff_le x y).mpr h), if_pos h]
    · rw [if_neg (fun hc => h ((strLe_iff_le x y).mp hc)), if_neg h, ih]

lemma sortStrings_eq_insertionSort (l : List String) :
    sortStrings l = l.insertionSort (· ≤ ·) := by
  induction l with
  | nil => rfl
  | cons x xs ih =>
    simp only [sortStrings, List.foldr, List.insertionSort] at *
    rw [ih, insertSorted_eq_orderedInsert]

/-- `sortStrings` output is sorted for the linear order on `String`. -/
lemma sortStrings_sorted (l : List String) :
    (sortStrings l).Sorted (· ≤ ·) := by
  rw [sortStrings_eq_insertionSort]
  exact List.sorted_insertionSort _ l

/-- `sortStrings` permutes its input. -/
lemma sortStrings_perm (l : List String) : List.Perm (sortStrings l) l := by
  rw [sortStrings_eq_insertionSort]
  exact List.perm_insertionSort _ l

namespace conventions

lemma splitOnChar_ne_nil (sep : Char) (l : List Char) :
    splitOnChar sep l ≠ [] := by
  induction l with
  | nil => simp [splitOnChar]
  | cons c cs ih =>
    simp only [splitOnChar]
    split
    · simp
    · split
      · simp
      · simp

lemma splitOnChar_singleton (sep : Char) (l g : List Char)
    (h : splitOnChar sep l = [g]) : l = g := by
  induction l generalizing g with
  | nil =>
    simp only [splitOnChar, List.cons.injEq] at h
    exact h.1
  | cons c cs ih =>
    simp only [splitOnChar] at h
    by_cases hc : c = sep
    · rw [if_pos hc] at h
      obtain ⟨-, h2⟩ := List.cons.injEq _ _ _ _ ▸ h
      exact absurd h2 (splitOnChar_ne_nil sep cs)
    · rw [if_neg hc] at h
      rcases hr : splitOnChar sep cs with _ | ⟨g', gs⟩
      · exact absurd hr (splitOnChar_ne_nil sep cs)
      · rw [hr] at h
        obtain ⟨h1, h2⟩ := List.cons.injEq _ _ _ _ ▸ h
        have := ih g' (by rw [hr, h2])
        rw [this, h1]

lemma strSplitOn_eq_index_iff (f : String) :
    strSplitOn '.' f = ["index"] ↔ f = "index" := by
  constructor
  · intro h
    simp only [strSplitOn, List.map_eq_cons_iff] at h
    obtain ⟨g, gs, hsplit, hg, hgs⟩ := h
    rcases List.map_eq_nil_iff.mp hgs with hnil
    have hsingle : splitOnChar '.' f.data = [g] := by rw [hsplit, hnil]
    have := splitOnChar_singleton '.' f.data g hsingle
    cases f with
    | mk d =>
      simp only at this
      rw [show ("index" : String) = String.mk "index".data from rfl]
      rw [show d = g from this, hg]
  · intro h
    subst h
    rfl

/-- The source function and the specification's wording agree on every
folder name. -/
lemma folderToURLPattern_eq_spec (f : String) :
    FolderToURLPattern f = specFolderToURLPattern f := by
  unfold FolderToURLPattern specFolderToURLPattern
  by_cases h : f = "index"
  · rw [if_pos h, if_pos (by rw [h]; rfl)]
  · rw [if_neg h, if_neg (fun hc => h ((strSplitOn_eq_index_iff f).mp hc))]

end conventions

/-- **C8.** For every route folder name, the computed URL pattern arises by
splitting the folder name on `.`, making each dot-separated segment a path
segment, replacing a `$name` segment by the named path parameter `{name}`,
and mapping the literal folder name `index` to the root path:
`FolderToURLPattern` agrees with the specification's description on every
input, and in particular `"dashboard" ↦ "/dashboard"`,
`"users.$id.edit" ↦ "/users/\x7bid\x7d/edit"`, `"index" ↦ "/"`. -/
theorem c8_folder_to_url_pattern :
    (∀ f, conventions.FolderToURLPattern f = conventions.specFolderToURLPattern f)
      ∧ conventions.FolderToURLPattern "dashboard" = "/dashboard"
      ∧ conventions.FolderToURLPattern "users.$id.edit" = "/users/\x7bid\x7d/edit"
      ∧ conventions.FolderToURLPattern "index" = "/" :=
  ⟨conventions.folderToURLPattern_eq_spec, by decide, by decide, by decide⟩

namespace codegen

lemma parseRouteFunc_eq (fn : FuncSrc) :
    parseRouteFunc fn =
      if specHandlerOK fn then some (mkHandler fn, [(mkHandler fn).ReturnType])
      else none := by
  rcases fn with ⟨name, recv, params, results⟩
  cases results with
  | none => rfl
  | some l =>
    rcases l with _ | ⟨field, rest⟩
    · rfl
    · rcases rest with _ | ⟨g, rest'⟩
      · simp only [parseRouteFunc, specHandlerOK, mkHandler, funcHasCtx]
        by_cases h1 : (resolveType field.typ).1 = ""
        · simp [h1]
        · by_cases h2 : (resolveType field.typ).2
          · simp [h1, h2]
          · by_cases h3 : isPrimitiveGoType (resolveType field.typ).1
            · simp [h1, h2, h3]
            · simp [h1, h2, h3]
      · rfl

lemma collectedFuncs_eq_spec (files : List GoSrcFile) :
    collectedFuncs files =
      ((routeFuncCandidates files).filter specHandlerOK).map mkHandler := by
  unfold collectedFuncs
  induction routeFuncCandidates files with
  | nil => rfl
  | cons fn fns ih =>
    simp only [List.filterMap_cons, List.filter_cons]
    rw [parseRouteFunc_eq fn]
    by_cases h : specHandlerOK fn
    · simp [h, ih]
    · simp [h, ih]

lemma parseFiles_of_all_valid (files : List GoSrcFile)
    (h : ∀ f ∈ files, f ≠ .invalid) :
    ∃ parsed, parseFiles files = some parsed ∧
      (parsed = [] ↔ files = []) := by
  induction files with
  | nil => exact ⟨[], rfl, by simp⟩
  | cons f fs ih =>
    obtain ⟨parsed, hp, hiff⟩ := ih fun g hg => h g (List.mem_cons_of_mem f hg)
    cases f with
    | invalid => exact absurd rfl (h .invalid (List.mem_cons_self _ _))
    | valid pkg decls =>
      refine ⟨(pkg, decls) :: parsed, ?_, by simp⟩
      simp only [parseFiles, hp]
      rfl

end codegen

/-- **C4 (code bug).** A directory declaring the dead struct `number`
(nothing references it: the handler returns `ServerData`, whose only
field `N` has the primitive Go type `int`) nevertheless yields a
`RouteFile` whose `Structs` set contains `number`.  The transitive
resolver follows the TypeScript-mapped field type strings, and the `int`
field maps to the string `"number"`, which collides with the local struct
name — so an unreachable struct is included, contradicting the
exactly-the-reachable-definitions invariant. -/
theorem c4_dead_struct_included :
    codegen.parseRouteDir "numberbug"
        [.valid "p"
          [.typeStruct "number" [⟨["X"], none, .ident "string"⟩],
           .typeStruct "ServerData" [⟨["N"], none, .ident "int"⟩],
           .funcD ⟨"SSR", false, [], some [⟨[], .ident "ServerData"⟩]⟩]]
      = .ok (some ⟨"numberbug", "p",
          [⟨"SSR", "ServerData", false⟩],
          [⟨"ServerData", [⟨"N", "n", "number"⟩]⟩,
           ⟨"number", [⟨"X", "x", "string"⟩]⟩]⟩)
    ∧ codegen.mentionsGoType "number"
        [.valid "p"
          [.typeStruct "number" [⟨["X"], none, .ident "string"⟩],
           .typeStruct "ServerData" [⟨["N"], none, .ident "int"⟩],
           .funcD ⟨"SSR", false, [], some [⟨[], .ident "ServerData"⟩]⟩]]
      = false := by
  constructor
  · decide
  · decide

/-- **C5 counterexample.** A top-level `SSR` returning the locally
declared *non-aggregate* named type `MyInt` (`type MyInt int`) *is*
recorded as a handler (with `ReturnType = "MyInt"`), refuting the claim
that a function is recorded only when its single return type is a
locally-declared named aggregate (struct). -/
theorem c5_counterexample :
    codegen.parseRouteDir "api"
        [.valid "api"
          [.typeOther "MyInt",
           .funcD ⟨"SSR", false, [], some [⟨[], .ident "MyInt"⟩]⟩]]
      = .ok (some ⟨"api", "api", [⟨"SSR", "MyInt", false⟩], []⟩)
    ∧ codegen.declaresStruct "MyInt"
        [.valid "api"
          [.typeOther "MyInt",
           .funcD ⟨"SSR", false, [], some [⟨[], .ident "MyInt"⟩]⟩]]
      = false := by
  constructor
  · decide
  · decide

/-- **C5 (amended).** For every directory of syntactically valid Go
files: the parse never fails; a top-level function bearing a recognized
handler name is recorded as a handler if and only if it has a result
list with exactly one field whose resolved base type name is non-empty,
not a slice and not a primitive Go type name (local declaration as an
aggregate is *not* required); functions violating this are silently
omitted while the remaining recognized functions are recorded normally;
and the directory yields no `RouteFile` exactly when it has no files or
no recorded handler. -/
theorem c5_handler_recognition (dirK : String)
    (files : List codegen.GoSrcFile)
    (hval : ∀ f ∈ files, f ≠ .invalid) :
    ∃ res, codegen.parseRouteDir dirK files = .ok res
      ∧ (∀ rf, res = some rf →
          rf.Funcs = ((codegen.routeFuncCandidates files).filter
              codegen.specHandlerOK).map codegen.mkHandler)
      ∧ (res = none ↔ files = [] ∨
          ((codegen.routeFuncCandidates files).filter
            codegen.specHandlerOK) = []) := by
  classical
  obtain ⟨parsed, hp, hiff⟩ := codegen.parseFiles_of_all_valid files hval
  rcases parsed with _ | ⟨⟨pkg, decls⟩, rest⟩
  · refine ⟨none, ?_, ?_, ?_⟩
    · unfold codegen.parseRouteDir
      rw [hp]
    · intro rf hrf
      cases hrf
    · simp [hiff.mp rfl]
  · by_cases hf : codegen.collectedFuncs files = []
    · refine ⟨none, ?_, ?_, ?_⟩
      · unfold codegen.parseRouteDir
        rw [hp]
        simp [hf]
      · intro rf hrf
        cases hrf
      · constructor
        · intro _
          right
          have := codegen.collectedFuncs_eq_spec files
          rw [hf] at this
          exact (List.map_eq_nil_iff.mp this.symm)
        · intro _
          rfl
    · refine ⟨some ⟨dirK, pkg,
        codegen.collectedFuncs files,
        (sortStrings (codegen.resolveTransitiveStructs
          (codegen.dedupKeepFirst (codegen.collectedRefs files))
          (codegen.structTable ((pkg, decls) :: rest)))).filterMap
            fun name => (codegen.structTable ((pkg, decls) :: rest)).lookup name⟩,
        ?_, ?_, ?_⟩
      · unfold codegen.parseRouteDir
        rw [hp]
        simp [hf]
      · intro rf hrf
        cases hrf
        exact codegen.collectedFuncs_eq_spec files
      · constructor
        · intro hc
          cases hc
        · intro hc
          rcases hc with hc | hc
          · exact absurd (hiff.mpr hc) (by simp)
          · exfalso
            apply hf
            rw [codegen.collectedFuncs_eq_spec files, hc]
            rfl

/-- **C5 witness.** The amended recognition theorem at a concrete
directory mixing one valid handler with a primitive-returning `SSR`-named
function (the latter silently dropped). -/
theorem c5_handler_recognition_witness :
    (∀ f ∈ [codegen.GoSrcFile.valid "page"
        [.typeStruct "ServerData" [⟨["Title"], none, .ident "string"⟩],
         .funcD ⟨"SSR", false, [], some [⟨[], .ident "ServerData"⟩]⟩]],
      f ≠ codegen.GoSrcFile.invalid)
    ∧ ∃ res, codegen.parseRouteDir "page"
        [codegen.GoSrcFile.valid "page"
          [.typeStruct "ServerData" [⟨["Title"], none, .ident "string"⟩],
           .funcD ⟨"SSR", false, [], some [⟨[], .ident "ServerData"⟩]⟩]]
        = .ok res
      ∧ (∀ rf, res = some rf →
          rf.Funcs = ((codegen.routeFuncCandidates
              [codegen.GoSrcFile.valid "page"
                [.typeStruct "ServerData" [⟨["Title"], none, .ident "string"⟩],
                 .funcD ⟨"SSR", false, [], some [⟨[], .ident "ServerData"⟩]⟩]]).filter
              codegen.specHandlerOK).map codegen.mkHandler)
      ∧ (res = none ↔
          [codegen.GoSrcFile.valid "page"
            [.typeStruct "ServerData" [⟨["Title"], none, .ident "string"⟩],
             .funcD ⟨"SSR", false, [], some [⟨[], .ident "ServerData"⟩]⟩]] = []
          ∨ ((codegen.routeFuncCandidates
              [codegen.GoSrcFile.valid "page"
                [.typeStruct "ServerData" [⟨["Title"], none, .ident "string"⟩],
                 .funcD ⟨"SSR", false, [], some [⟨[], .ident "ServerData"⟩]⟩]]).filter
              codegen.specHandlerOK) = []) :=
  ⟨by decide, c5_handler_recognition "page" _ (by decide)⟩

lemma toNat_ofNat_valid (n : Nat) (h : n < 55296) : (Char.ofNat n).toNat = n := by
  unfold Char.ofNat
  rw [dif_pos (Or.inl h : Nat.isValidChar n)]
  simp [Char.ofNatAux, Char.toNat, UInt32.toNat]

lemma toUpper_fix (x t : Char) (ht : ¬(65 ≤ t.toNat ∧ t.toNat ≤ 90))
    (h : x.toUpper = t) : x = t := by
  unfold Char.toUpper at h
  simp only at h
  by_cases hx : x.toNat ≥ 97 ∧ x.toNat ≤ 122
  · rw [if_pos hx] at h
    exfalso
    have hlt : x.toNat - 32 < 55296 := by omega
    have := congrArg Char.toNat h
    rw [toNat_ofNat_valid (x.toNat - 32) hlt] at this
    exact ht ⟨by omega, by omega⟩
  · rw [if_neg hx] at h
    exact h

lemma mem_splitOnChar {sep : Char} :
    ∀ (l : List Char) (g : List Char), g ∈ splitOnChar sep l →
      ∀ c ∈ g, c ∈ l ∧ c ≠ sep := by
  intro l
  induction l with
  | nil =>
    intro g hg c hc
    simp [splitOnChar] at hg
    subst hg
    cases hc
  | cons a as ih =>
    intro g hg c hc
    simp only [splitOnChar] at hg
    by_cases ha : a = sep
    · rw [if_pos ha] at hg
      rcases List.mem_cons.mp hg with hg | hg
      · subst hg
        cases hc
      · obtain ⟨hm, hne⟩ := ih g hg c hc
        exact ⟨List.mem_cons_of_mem a hm, hne⟩
    · rw [if_neg ha] at hg
      rcases hr : splitOnChar sep as with _ | ⟨g', gs⟩
      · exact absurd hr (conventions.splitOnChar_ne_nil sep as)
      · rw [hr] at hg
        rcases List.mem_cons.mp hg with hg | hg
        · subst hg
          rcases List.mem_cons.mp hc with hc | hc
          · subst hc
            exact ⟨List.mem_cons_self _ _, ha⟩
          · obtain ⟨hm, hne⟩ :=
              ih g' (by rw [hr]; exact List.mem_cons_self g' gs) c hc
            exact ⟨List.mem_cons_of_mem a hm, hne⟩
        · obtain ⟨hm, hne⟩ :=
            ih g (by rw [hr]; exact List.mem_cons_of_mem g' hg) c hc
          exact ⟨List.mem_cons_of_mem a hm, hne⟩

lemma namespace_seg_chars (d : String) (seg : List Char)
    (hseg : seg ∈ ((splitOnChar '/' d.data).flatMap (splitOnChar '.')).map
      (List.filter (· ≠ '$')))
    (c : Char) (hc : c ∈ seg) : c ≠ '/' ∧ c ≠ '.' ∧ c ≠ '$' := by
  obtain ⟨seg0, hseg0, hfil⟩ := List.mem_map.mp hseg
  obtain ⟨seg1, hseg1, hseg0'⟩ := List.mem_flatMap.mp hseg0
  subst hfil
  have hdollar := List.of_mem_filter hc
  have hcseg0 : c ∈ seg0 := List.mem_of_mem_filter hc
  obtain ⟨hcseg1, hdot⟩ := mem_splitOnChar seg1 seg0 hseg0' c hcseg0
  obtain ⟨-, hslash⟩ := mem_splitOnChar d.data seg1 hseg1 c hcseg1
  refine ⟨hslash, hdot, ?_⟩
  intro hd
  rw [hd] at hdollar
  simp at hdollar

/-- **C7.** The generated type-declaration block's name: the root
directory `.` maps to the fixed sentinel `Main`, every other path maps to
the path with separators and dynamic-segment markers stripped and each
segment capitalized and concatenated, and the resulting name never
contains a `/`, `.` or `$` character (e.g. `routes/users.$id ↦
RoutesUsersId`). -/
theorem c7_namespace_name :
    codegen.Namespace "." = "Main"
    ∧ codegen.Namespace "routes/users.$id" = "RoutesUsersId"
    ∧ ∀ d : String, ∀ c ∈ (codegen.Namespace d).data,
        c ≠ '/' ∧ c ≠ '.' ∧ c ≠ '$' := by
  refine ⟨by decide, by decide, ?_⟩
  intro d c hc
  unfold codegen.Namespace at hc
  by_cases hd : d = "."
  · rw [if_pos hd] at hc
    have : c = 'M' ∨ c = 'a' ∨ c = 'i' ∨ c = 'n' := by
      simpa using hc
    rcases this with h | h | h | h <;> subst h <;> refine ⟨by decide, by decide, by decide⟩
  · rw [if_neg hd] at hc
    simp only at hc
    obtain ⟨seg, hseg, hcu⟩ := List.mem_flatMap.mp hc
    cases hsegc : seg with
    | nil =>
      rw [hsegc] at hcu
      cases hcu
    | cons x xs =>
      rw [hsegc] at hcu
      rcases List.mem_cons.mp hcu with hcu | hcu
      · subst hcu
        have hx := namespace_seg_chars d seg hseg x
          (by rw [hsegc]; exact List.mem_cons_self x xs)
        refine ⟨?_, ?_, ?_⟩
        · intro ht
          exact hx.1 (toUpper_fix x '/' (by decide) ht)
        · intro ht
          exact hx.2.1 (toUpper_fix x '.' (by decide) ht)
        · intro ht
          exact hx.2.2 (toUpper_fix x '$' (by decide) ht)
      · exact namespace_seg_chars d seg hseg c
          (by rw [hsegc]; exact List.mem_cons_of_mem x hcu)

lemma charCount_append (c : Char) (s t : String) :
    charCount c (s ++ t) = charCount c s + charCount c t := by
  cases s
  cases t
  simp only [charCount]
  rw [show (String.mk _ ++ String.mk _).data = _ ++ _ from rfl]
  exact List.count_append _ _ _

lemma charCount_eq_zero (c : Char) (s : String) (h : c ∉ s.data) :
    charCount c s = 0 :=
  List.count_eq_zero.mpr h

lemma charCount_strConcat_map {α : Type} (c : Char) (f : α → String)
    (l : List α) (k : Nat) (h : ∀ x ∈ l, charCount c (f x) = k) :
    charCount c (codegen.strConcat (l.map f)) = k * l.length := by
  induction l with
  | nil => simp [codegen.strConcat, charCount]
  | cons x xs ih =>
    have hc : codegen.strConcat ((x :: xs).map f)
        = f x ++ codegen.strConcat (xs.map f) := rfl
    rw [hc, charCount_append, h x (List.mem_cons_self _ _),
      ih fun y hy => h y (List.mem_cons_of_mem x hy)]
    simp [List.length_cons]
    ring

lemma substrOf_self (s : String) : substrOf s s :=
  ⟨[], [], by simp⟩

lemma substrOf_appendL {n s : String} (t : String) (h : substrOf n s) :
    substrOf n (s ++ t) := by
  obtain ⟨a, b, hab⟩ := h
  exact ⟨a, b ++ t.data, by simp [hab]⟩

lemma substrOf_appendR {n t : String} (s : String) (h : substrOf n t) :
    substrOf n (s ++ t) := by
  obtain ⟨a, b, hab⟩ := h
  exact ⟨s.data ++ a, b, by simp [hab]⟩

lemma substrOf_strConcat {α : Type} {n : String} (f : α → String)
    (l : List α) (x : α) (hx : x ∈ l) (h : substrOf n (f x)) :
    substrOf n (codegen.strConcat (l.map f)) := by
  induction l with
  | nil => cases hx
  | cons y ys ih =>
    have hc : codegen.strConcat ((y :: ys).map f)
        = f y ++ codegen.strConcat (ys.map f) := rfl
    rw [hc]
    rcases List.mem_cons.mp hx with hx' | hx'
    · subst hx'
      exact substrOf_appendL _ h
    · exact substrOf_appendR _ (ih hx')

namespace codegen

lemma namespace_chars (d : String) (c : Char)
    (hc : c ∈ (Namespace d).data) :
    c ∈ "Main".data ∨ c ∈ d.data ∨ ∃ x ∈ d.data, c = x.toUpper := by
  unfold Namespace at hc
  by_cases hd : d = "."
  · rw [if_pos hd] at hc
    exact Or.inl hc
  · rw [if_neg hd] at hc
    simp only at hc
    obtain ⟨seg, hseg, hcu⟩ := List.mem_flatMap.mp hc
    obtain ⟨seg0, hseg0, hfil⟩ := List.mem_map.mp hseg
    obtain ⟨seg1, hseg1, hseg0'⟩ := List.mem_flatMap.mp hseg0
    have mem_d : ∀ z ∈ seg, z ∈ d.data := by
      intro z hz
      subst hfil
      have hz0 : z ∈ seg0 := List.mem_of_mem_filter hz
      have hz1 := (mem_splitOnChar seg1 seg0 hseg0' z hz0).1
      exact (mem_splitOnChar d.data seg1 hseg1 z hz1).1
    cases hsegc : seg with
    | nil =>
      rw [hsegc] at hcu
      cases hcu
    | cons x xs =>
      rw [hsegc] at hcu
      rcases List.mem_cons.mp hcu with hcu | hcu
      · exact Or.inr (Or.inr ⟨x, mem_d x (by rw [hsegc]; exact List.mem_cons_self _ _), hcu⟩)
      · exact Or.inr (Or.inl (mem_d c (by rw [hsegc]; exact List.mem_cons_of_mem x hcu)))

lemma namespace_braceFree (d : String) (hd : braceFree d) :
    braceFree (Namespace d) := by
  constructor
  · intro hc
    rcases namespace_chars d '{' hc with h | h | ⟨x, hx, hux⟩
    · simp at h
    · exact hd.1 h
    · rw [toUpper_fix x '{' (by decide) hux.symm] at hx
      exact hd.1 hx
  · intro hc
    rcases namespace_chars d '}' hc with h | h | ⟨x, hx, hux⟩
    · simp at h
    · exact hd.2 h
    · rw [toUpper_fix x '}' (by decide) hux.symm] at hx
      exact hd.2 hx

lemma dtsStructBlock_count (sd : StructDef)
    (hn : braceFree sd.Name)
    (hf : ∀ f ∈ sd.Fields, braceFree f.JSONName ∧ braceFree f.Typ) :
    charCount '{' (dtsStructBlock sd) = 1
      ∧ charCount '}' (dtsStructBlock sd) = 1 := by
  have hfl : ∀ c : Char, c = '{' ∨ c = '}' →
      charCount c (strConcat (sd.Fields.map dtsFieldLine)) = 0 := by
    intro c hcc
    rw [charCount_strConcat_map c dtsFieldLine sd.Fields 0, Nat.zero_mul]
    intro f hfm
    unfold dtsFieldLine
    rw [charCount_append, charCount_append, charCount_append,
      charCount_append]
    obtain ⟨h1, h2⟩ := hf f hfm
    rcases hcc with hcc | hcc <;> subst hcc
    · rw [charCount_eq_zero _ _ h1.1, charCount_eq_zero _ _ h2.1]
      decide
    · rw [charCount_eq_zero _ _ h1.2, charCount_eq_zero _ _ h2.2]
      decide
  constructor
  · unfold dtsStructBlock
    simp only [charCount_append]
    rw [hfl '{' (Or.inl rfl), charCount_eq_zero _ _ hn.1]
    decide
  · unfold dtsStructBlock
    simp only [charCount_append]
    rw [hfl '}' (Or.inr rfl), charCount_eq_zero _ _ hn.2]
    decide

lemma dtsPropBlock_count (fn : RouteFunc)
    (hn : braceFree fn.Name) (hr : braceFree fn.ReturnType) :
    charCount '{' (dtsPropBlock fn) = 1
      ∧ charCount '}' (dtsPropBlock fn) = 1 := by
  constructor
  · unfold dtsPropBlock
    simp only [charCount_append]
    rw [charCount_eq_zero _ _ hn.1, charCount_eq_zero _ _ hr.1]
    decide
  · unfold dtsPropBlock
    simp only [charCount_append]
    rw [charCount_eq_zero _ _ hn.2, charCount_eq_zero _ _ hr.2]
    decide

end codegen

/-- **C10 counterexample.** A `RouteFile` whose single field carries the
mapped type string `{` makes `GenerateDTS` emit more `{` than `}`
characters, so the brace-balance invariant does not hold for *every*
`RouteFile`. -/
theorem c10_counterexample :
    charCount '{' (codegen.GenerateDTS
        ⟨"dash", "p", [⟨"SSR", "S", false⟩], [⟨"S", [⟨"F", "f", "\x7b"⟩]⟩]⟩)
      = 4
    ∧ charCount '}' (codegen.GenerateDTS
        ⟨"dash", "p", [⟨"SSR", "S", false⟩], [⟨"S", [⟨"F", "f", "\x7b"⟩]⟩]⟩)
      = 3 := by
  constructor
  · decide
  · decide

/-- **C10 (amended).** For every `RouteFile` whose directory path, struct
names, field names, mapped field types, handler names and handler return
types contain no brace character: the `.d.ts` text generated by
`GenerateDTS` has equally many `{` and `}` characters, contains the
substring `declare namespace ` followed by `Namespace rf.Dir`, contains
one `interface <Name>` declaration per struct in `Structs`, and one
`<Name>Props` interface per handler function. -/
theorem c10_dts_invariants (rf : codegen.RouteFile)
    (hdir : braceFree rf.Dir)
    (hstructs : ∀ sd ∈ rf.Structs, braceFree sd.Name ∧
      ∀ f ∈ sd.Fields, braceFree f.JSONName ∧ braceFree f.Typ)
    (hfuncs : ∀ fn ∈ rf.Funcs, braceFree fn.Name ∧ braceFree fn.ReturnType) :
    charCount '{' (codegen.GenerateDTS rf)
        = charCount '}' (codegen.GenerateDTS rf)
      ∧ substrOf ("declare namespace " ++ codegen.Namespace rf.Dir)
          (codegen.GenerateDTS rf)
      ∧ (∀ sd ∈ rf.Structs,
          substrOf ("interface " ++ sd.Name) (codegen.GenerateDTS rf))
      ∧ (∀ fn ∈ rf.Funcs,
          substrOf (fn.Name ++ "Props") (codegen.GenerateDTS rf)) := by
  have hns := codegen.namespace_braceFree rf.Dir hdir
  refine ⟨?_, ?_, ?_, ?_⟩
  · unfold codegen.GenerateDTS
    simp only [charCount_append]
    rw [charCount_eq_zero '{' _ hns.1, charCount_eq_zero '}' _ hns.2]
    rw [charCount_strConcat_map '{' codegen.dtsStructBlock rf.Structs 1
        (fun sd hsd => ((codegen.dtsStructBlock_count sd (hstructs sd hsd).1
          (hstructs sd hsd).2).1)),
      charCount_strConcat_map '}' codegen.dtsStructBlock rf.Structs 1
        (fun sd hsd => ((codegen.dtsStructBlock_count sd (hstructs sd hsd).1
          (hstructs sd hsd).2).2)),
      charCount_strConcat_map '{' codegen.dtsPropBlock rf.Funcs 1
        (fun fn hfn => ((codegen.dtsPropBlock_count fn (hfuncs fn hfn).1
          (hfuncs fn hfn).2).1)),
      charCount_strConcat_map '}' codegen.dtsPropBlock rf.Funcs 1
        (fun fn hfn => ((codegen.dtsPropBlock_count fn (hfuncs fn hfn).1
          (hfuncs fn hfn).2).2))]
    have h1 : charCount '{' "// Code generated by rstf. DO NOT EDIT.\n\n" = 0 := by decide
    have h2 : charCount '}' "// Code generated by rstf. DO NOT EDIT.\n\n" = 0 := by decide
    have h3 : charCount '{' "declare namespace " = 0 := by decide
    have h4 : charCount '}' "declare namespace " = 0 := by decide
    have h5 : charCount '{' " \x7b\n" = 1 := by decide
    have h6 : charCount '}' " \x7b\n" = 0 := by decide
    have h7 : charCount '{' "\x7d\n" = 0 := by decide
    have h8 : charCount '}' "\x7d\n" = 1 := by decide
    rw [h1, h2, h3, h4, h5, h6, h7, h8]
    simp only [Nat.one_mul]
    omega
  · unfold codegen.GenerateDTS
    exact substrOf_appendR _ (substrOf_appendL _ (substrOf_self _))
  · intro sd hsd
    unfold codegen.GenerateDTS
    refine substrOf_appendR _ (substrOf_appendR _ (substrOf_appendR _
      (substrOf_appendL _ ?_)))
    refine substrOf_strConcat codegen.dtsStructBlock rf.Structs sd hsd ?_
    unfold codegen.dtsStructBlock
    exact substrOf_appendL _ (substrOf_appendR _ (substrOf_self _))
  · intro fn hfn
    unfold codegen.GenerateDTS
    refine substrOf_appendR _ (substrOf_appendR _ (substrOf_appendR _
      (substrOf_appendR _ (substrOf_appendL _ ?_))))
    refine substrOf_strConcat codegen.dtsPropBlock rf.Funcs fn hfn ?_
    unfold codegen.dtsPropBlock
    exact substrOf_appendR _ (substrOf_appendL _ (substrOf_self _))

/-- **C10 witness.** The amended invariants at a concrete `RouteFile`
with one struct and one handler. -/
theorem c10_dts_invariants_witness :
    braceFree "dashboard"
    ∧ (charCount '{' (codegen.GenerateDTS
          ⟨"dashboard", "dashboard", [⟨"SSR", "ServerData", true⟩],
            [⟨"ServerData", [⟨"Title", "title", "string"⟩]⟩]⟩)
        = charCount '}' (codegen.GenerateDTS
          ⟨"dashboard", "dashboard", [⟨"SSR", "ServerData", true⟩],
            [⟨"ServerData", [⟨"Title", "title", "string"⟩]⟩]⟩)) := by
  constructor
  · decide
  · exact (c10_dts_invariants
      ⟨"dashboard", "dashboard", [⟨"SSR", "ServerData", true⟩],
        [⟨"ServerData", [⟨"Title", "title", "string"⟩]⟩]⟩
      (by decide) (by decide) (by decide)).1

namespace codegen

lemma cacheRead_sound (c : Cache) (fs : FS) (p : List String)
    (h : cacheAgrees c fs) :
    (cacheRead c fs p).1 = fs.tsx.lookup p
      ∧ cacheAgrees (cacheRead c fs p).2 fs := by
  cases hl : c.files.lookup p with
  | some content =>
    constructor
    · simp [cacheRead, hl, h.1 p content hl]
    · simp only [cacheRead, hl]
      exact h
  | none =>
    cases hf : fs.tsx.lookup p with
    | some content =>
      constructor
      · simp [cacheRead, hl, hf]
      · simp only [cacheRead, hl, hf]
        refine ⟨?_, h.2⟩
        intro q qc hq
        simp only [List.lookup_cons] at hq
        by_cases hqp : q = p
        · subst hqp
          simp at hq
          rw [hf, hq]
        · have hne : (q == p) = false := by simp [hqp]
          rw [hne] at hq
          exact h.1 q qc hq
    | none =>
      constructor
      · simp [cacheRead, hl, hf]
      · simp only [cacheRead, hl, hf]
        exact h

lemma cacheHasGo_sound (c : Cache) (fs : FS) (d : List String)
    (h : cacheAgrees c fs) :
    (cacheHasGo c fs d).1 = dirHasGoFile fs d
      ∧ cacheAgrees (cacheHasGo c fs d).2 fs := by
  cases hl : c.hasGo.lookup d with
  | some b =>
    constructor
    · simp [cacheHasGo, hl, h.2 d b hl]
    · simp only [cacheHasGo, hl]
      exact h
  | none =>
    constructor
    · simp [cacheHasGo, hl]
    · simp only [cacheHasGo, hl]
      refine ⟨h.1, ?_⟩
      intro e b hb
      simp only [List.lookup_cons] at hb
      by_cases hed : e = d
      · subst hed
        simp at hb
        rw [hb]
      · have hne : (e == d) = false := by simp [hed]
        rw [hne] at hb
        exact h.2 e b hb

lemma insertKey_nodup (k : String) (l : List String) (h : l.Nodup) :
    (insertKey k l).Nodup := by
  unfold insertKey
  by_cases hc : l.contains k
  · rw [if_pos hc]
    exact h
  · rw [if_neg hc]
    exact List.nodup_cons.mpr ⟨fun hm => hc (List.elem_eq_true_of_mem hm), h⟩

lemma insertKey_mem {k : String} {l : List String} {x : String}
    (hx : x ∈ insertKey k l) : x = k ∨ x ∈ l := by
  unfold insertKey at hx
  by_cases hc : l.contains k
  · rw [if_pos hc] at hx
    exact Or.inr hx
  · rw [if_neg hc] at hx
    rcases List.mem_cons.mp hx with h | h
    · exact Or.inl h
    · exact Or.inr h

lemma walkLoop_inv (fs : FS) :
    ∀ (n : Nat) (pending : List (List String)) (st st' : WalkSt),
      walkLoop fs n pending st = .ok st' →
      cacheAgreesO st.cache fs →
      st.goDirs.Nodup →
      (∀ k ∈ st.goDirs, goDirOK fs k) →
      cacheAgreesO st'.cache fs ∧ st'.goDirs.Nodup
        ∧ (∀ k ∈ st'.goDirs, goDirOK fs k) := by
  intro n
  induction n with
  | zero =>
    intro pending st st' h hca hnd hok
    unfold walkLoop at h
    by_cases hp : pending = []
    · rw [if_pos hp] at h
      cases h
      exact ⟨hca, hnd, hok⟩
    · rw [if_neg hp] at h
      cases h
  | succ n ih =>
    intro pending st st' h hca hnd hok
    cases pending with
    | nil =>
      unfold walkLoop at h
      cases h
      exact ⟨hca, hnd, hok⟩
    | cons p rest =>
      obtain ⟨v, g, copt⟩ := st
      unfold walkLoop at h
      by_cases hvis : (List.contains v p : Bool)
      · rw [if_pos (by exact hvis)] at h
        exact ih rest _ st' h hca hnd hok
      · rw [if_neg (by exact fun hc => hvis hc)] at h
        simp only at h
        cases copt with
        | none =>
          cases hread : fs.tsx.lookup p with
          | none =>
            rw [hread] at h
            cases h
          | some specs =>
            rw [hread] at h
            simp only at h
            by_cases hg : dirHasGoFile fs p.dropLast
            · rw [if_pos hg] at h
              refine ih _ _ st' h trivial (insertKey_nodup _ _ hnd) ?_
              intro k hk
              rcases insertKey_mem hk with hk' | hk'
              · exact ⟨p.dropLast, hk', hg⟩
              · exact hok k hk'
            · rw [if_neg hg] at h
              exact ih _ _ st' h trivial hnd hok
        | some c =>
          have hcr := cacheRead_sound c fs p hca
          cases hread : (cacheRead c fs p).1 with
          | none =>
            rw [hread] at h
            cases h
          | some specs =>
            rw [hread] at h
            simp only at h
            have hhg := cacheHasGo_sound (cacheRead c fs p).2 fs p.dropLast hcr.2
            by_cases hg : (cacheHasGo (cacheRead c fs p).2 fs p.dropLast).1
            · rw [if_pos hg] at h
              refine ih _ _ st' h hhg.2 (insertKey_nodup _ _ hnd) ?_
              intro k hk
              rcases insertKey_mem hk with hk' | hk'
              · exact ⟨p.dropLast, hk', by rw [← hhg.1]; exact hg⟩
              · exact hok k hk'
            · rw [if_neg hg] at h
              exact ih _ _ st' h hhg.2 hnd hok

lemma entryWeight_mono (l : List (List String × List Spec))
    (v v' : List (List String)) (h : ∀ x ∈ v, x ∈ v') :
    entryWeight l v' ≤ entryWeight l v := by
  induction l with
  | nil => simp [entryWeight]
  | cons e es ih =>
    simp only [entryWeight, List.filter_cons] at *
    cases hv' : (v'.contains e.1 : Bool) with
    | true =>
      cases hv : (v.contains e.1 : Bool) with
      | true =>
        simp only [Bool.not_true, Bool.false_eq_true, if_false]
        exact ih
      | false =>
        simp only [Bool.not_true, Bool.false_eq_true, if_false,
          Bool.not_false, if_true, List.map_cons, List.sum_cons]
        omega
    | false =>
      have hv : (v.contains e.1 : Bool) = false := by
        cases hvc : (v.contains e.1 : Bool) with
        | true =>
          exfalso
          have hm := List.elem_eq_true_of_mem
            (h e.1 (List.mem_of_elem_eq_true hvc))
          have hcontra : (false : Bool) = true := by
            rw [← hv']
            exact hm
          cases hcontra
        | false => rfl
      rw [hv]
      simp only [Bool.not_false, if_true, List.map_cons, List.sum_cons]
      omega

lemma entryWeight_visit (l : List (List String × List Spec))
    (p : List String) (specs : List Spec) (v : List (List String))
    (hl : l.lookup p = some specs) (hv : ¬(v.contains p : Bool)) :
    entryWeight l (p :: v) + 1 + specs.length ≤ entryWeight l v := by
  induction l with
  | nil => cases hl
  | cons e es ih =>
    rw [List.lookup_cons] at hl
    by_cases hep : p = e.1
    · have hbeq : (p == e.1) = true := by simp [hep]
      rw [hbeq] at hl
      have hspecs : specs = e.2 := by
        cases hl
        rfl
      subst hspecs
      simp only [entryWeight, List.filter_cons]
      have hpv : ((p :: v).contains e.1 : Bool) = true := by
        simp [List.contains_cons, ← hep]
      have hvv : (v.contains e.1 : Bool) = false := by
        cases hvc : (v.contains e.1 : Bool) with
        | true =>
          exfalso
          rw [← hep] at hvc
          exact hv hvc
        | false => rfl
      rw [hpv, hvv]
      simp only [Bool.not_true, Bool.not_false, Bool.false_eq_true,
        if_false, if_true, List.map_cons, List.sum_cons]
      have := entryWeight_mono es v (p :: v)
        (fun x hx => List.mem_cons_of_mem p hx)
      simp only [entryWeight] at this
      omega
    · have hbeq : (p == e.1) = false := by simp [hep]
      rw [hbeq] at hl
      simp only [entryWeight, List.filter_cons]
      have hsame : ((p :: v).contains e.1 : Bool) = (v.contains e.1 : Bool) := by
        simp only [List.contains_cons]
        have he1p : (e.1 == p) = false := by
          rw [beq_eq_false_iff_ne]
          exact fun hc => hep hc.symm
        rw [he1p]
        simp
      rw [hsame]
      cases hc : (v.contains e.1 : Bool) with
      | true =>
        simp only [Bool.not_true, Bool.false_eq_true, if_false]
        exact ih hl
      | false =>
        simp only [Bool.not_false, if_true, List.map_cons, List.sum_cons]
        have hrec := ih hl
        simp only [entryWeight] at hrec
        omega

lemma walkLoop_no_fuelOut (fs : FS) :
    ∀ (n : Nat) (pending : List (List String)) (st : WalkSt),
      pending.length + pendWeight fs st.visited < n →
      cacheAgreesO st.cache fs →
      walkLoop fs n pending st ≠ .error .fuelOut := by
  intro n
  induction n with
  | zero =>
    intro pending st h _
    omega
  | succ n ih =>
    intro pending st h hca
    cases pending with
    | nil =>
      unfold walkLoop
      intro hc
      cases hc
    | cons p rest =>
      obtain ⟨v, g, copt⟩ := st
      dsimp only at h hca ⊢
      unfold walkLoop
      by_cases hvis : (List.contains v p : Bool)
      · rw [if_pos (by exact hvis)]
        refine ih rest _ ?_ hca
        dsimp only
        simp only [List.length_cons] at h
        omega
      · rw [if_neg (by exact fun hc => hvis hc)]
        simp only
        cases copt with
        | none =>
          cases hread : fs.tsx.lookup p with
          | none =>
            intro hc
            cases hc
          | some specs =>
            simp only
            by_cases hg : dirHasGoFile fs p.dropLast
            all_goals {
              first
              | rw [if_pos hg]
              | rw [if_neg hg]
              refine ih _ _ ?_ trivial
              have hvisit := entryWeight_visit fs.tsx p specs v hread hvis
              have hch : (specs.filterMap
                  (resolveImportPath fs p.dropLast)).length ≤ specs.length :=
                List.length_filterMap_le _ _
              simp only [pendWeight, List.length_append,
                List.length_cons] at h ⊢
              omega
            }
        | some c =>
          have hcr := cacheRead_sound c fs p hca
          cases hread : (cacheRead c fs p).1 with
          | none =>
            intro hc
            cases hc
          | some specs =>
            simp only
            have hlook : fs.tsx.lookup p = some specs := by
              rw [← hcr.1, hread]
            have hhg := cacheHasGo_sound (cacheRead c fs p).2 fs
              p.dropLast hcr.2
            by_cases hg : (cacheHasGo (cacheRead c fs p).2 fs p.dropLast).1
            all_goals {
              first
              | rw [if_pos hg]
              | rw [if_neg hg]
              refine ih _ _ ?_ hhg.2
              have hvisit := entryWeight_visit fs.tsx p specs v hlook hvis
              have hch : (specs.filterMap
                  (resolveImportPath fs p.dropLast)).length ≤ specs.length :=
                List.length_filterMap_le _ _
              simp only [pendWeight, List.length_append,
                List.length_cons] at h ⊢
              omega
            }

lemma analyzeDeps_no_fuelOut (fs : FS) (entry : List String)
    (cache : Option Cache) (h : cacheAgreesO cache fs) :
    AnalyzeDeps fs entry cache ≠ .error .fuelOut := by
  unfold AnalyzeDeps
  have hwalk := walkLoop_no_fuelOut fs (walkFuel fs) [entry] ⟨[], [], cache⟩
    (by simp [walkFuel, pendWeight]) h
  cases hres : walkLoop fs (walkFuel fs) [entry] ⟨[], [], cache⟩ with
  | error e =>
    rw [hres] at hwalk
    intro hc
    simp only [hres] at hc
    cases hc
    exact hwalk rfl
  | ok st =>
    simp only [hres]
    intro hc
    cases hc

lemma analyzeDeps_ok_props (fs : FS) (entry : List String)
    (cache : Option Cache) (h : cacheAgreesO cache fs)
    (r : List String) (c' : Option Cache)
    (hok : AnalyzeDeps fs entry cache = .ok (r, c')) :
    r.Sorted (· ≤ ·) ∧ r.Nodup ∧ (∀ k ∈ r, goDirOK fs k)
      ∧ cacheAgreesO c' fs := by
  unfold AnalyzeDeps at hok
  cases hres : walkLoop fs (walkFuel fs) [entry] ⟨[], [], cache⟩ with
  | error e =>
    rw [hres] at hok
    cases hok
  | ok st =>
    rw [hres] at hok
    obtain ⟨hca', hnd, hokdirs⟩ := walkLoop_inv fs (walkFuel fs) [entry]
      ⟨[], [], cache⟩ st hres h List.nodup_nil (by intro k hk; cases hk)
    cases hok
    refine ⟨sortStrings_sorted _, ?_, ?_, hca'⟩
    · exact (sortStrings_perm st.goDirs).nodup_iff.mpr hnd
    · intro k hk
      exact hokdirs k ((sortStrings_perm st.goDirs).mem_iff.mp hk)

end codegen

/-- **C3 counterexample.** A route whose component imports the project
root's `main.tsx` (and the root holds a `.go` file — the layout) makes
`AnalyzeDeps` return a list *containing* the root directory key `.`, so
the claim that `.` never appears in the returned list is false. -/
theorem c3_counterexample :
    codegen.AnalyzeDeps
        ⟨[([], [.valid "app" []]), (["routes", "a"], [.valid "a" []])],
         [(["routes", "a", "index.tsx"], [⟨2, ["main"]⟩]),
          (["main.tsx"], [])]⟩
        ["routes", "a", "index.tsx"] none
      = .ok ([".", "routes/a"], none) := by
  decide

/-- **C3 (amended).** For every snapshot, entry component file and
agreeing (or absent) cache, a successful `AnalyzeDeps` returns a
lexicographically sorted, duplicate-free list of project-relative
directory keys, each of which is the key of a directory containing at
least one `.go` source file; the root layout key `.` is *not* excluded
(it appears whenever a visited file sits in a project root that holds a
`.go` file — callers skip it). -/
theorem c3_analyze_deps_output (fs : codegen.FS) (entry : List String)
    (cache : Option codegen.Cache) (h : codegen.cacheAgreesO cache fs)
    (r : List String) (c' : Option codegen.Cache)
    (hok : codegen.AnalyzeDeps fs entry cache = .ok (r, c')) :
    r.Sorted (· ≤ ·) ∧ r.Nodup ∧ ∀ k ∈ r, codegen.goDirOK fs k :=
  ⟨(codegen.analyzeDeps_ok_props fs entry cache h r c' hok).1,
   (codegen.analyzeDeps_ok_props fs entry cache h r c' hok).2.1,
   (codegen.analyzeDeps_ok_props fs entry cache h r c' hok).2.2.1⟩

/-- **C3 witness.** The amended output properties at the concrete
two-route snapshot. -/
theorem c3_analyze_deps_output_witness :
    codegen.cacheAgreesO none
        ⟨[([], [.valid "app" []]), (["routes", "a"], [.valid "a" []])],
         [(["routes", "a", "index.tsx"], [⟨2, ["main"]⟩]),
          (["main.tsx"], [])]⟩
    ∧ (List.Sorted (· ≤ ·) [".", "routes/a"] ∧ [".", "routes/a"].Nodup
        ∧ ∀ k ∈ [".", "routes/a"],
            codegen.goDirOK
              ⟨[([], [.valid "app" []]), (["routes", "a"], [.valid "a" []])],
               [(["routes", "a", "index.tsx"], [⟨2, ["main"]⟩]),
                (["main.tsx"], [])]⟩ k) :=
  ⟨trivial, c3_analyze_deps_output _ ["routes", "a", "index.tsx"] none
    trivial [".", "routes/a"] none (by decide)⟩

/-- **C6.** For every import graph over component files — including
graphs containing cycles — the import walk started by `AnalyzeDeps`
terminates (the iteration bound is never exhausted, for any entry and
any agreeing or absent cache), and each directory occurs at most once in
the returned result. -/
theorem c6_walk_termination (fs : codegen.FS) (entry : List String)
    (cache : Option codegen.Cache) (h : codegen.cacheAgreesO cache fs) :
    codegen.AnalyzeDeps fs entry cache ≠ .error .fuelOut
      ∧ ∀ r c', codegen.AnalyzeDeps fs entry cache = .ok (r, c') →
          r.Nodup := by
  refine ⟨codegen.analyzeDeps_no_fuelOut fs entry cache h, ?_⟩
  intro r c' hok
  exact (codegen.analyzeDeps_ok_props fs entry cache h r c' hok).2.1

/-- **C6 witness.** Termination and at-most-once membership at a
concrete cyclic import graph (`routes/cycle` imports
`shared/other/other`, which imports `routes/cycle/index` back). -/
theorem c6_walk_termination_witness :
    codegen.cacheAgreesO none
        ⟨[(["routes", "cycle"], [.valid "cycle" []])],
         [(["routes", "cycle", "index.tsx"],
            [⟨2, ["shared", "other", "other"]⟩]),
          (["shared", "other", "other.tsx"],
            [⟨2, ["routes", "cycle", "index"]⟩])]⟩
    ∧ (codegen.AnalyzeDeps
          ⟨[(["routes", "cycle"], [.valid "cycle" []])],
           [(["routes", "cycle", "index.tsx"],
              [⟨2, ["shared", "other", "other"]⟩]),
            (["shared", "other", "other.tsx"],
              [⟨2, ["routes", "cycle", "index"]⟩])]⟩
          ["routes", "cycle", "index.tsx"] none ≠ .error .fuelOut
        ∧ ∀ r c', codegen.AnalyzeDeps
            ⟨[(["routes", "cycle"], [.valid "cycle" []])],
             [(["routes", "cycle", "index.tsx"],
                [⟨2, ["shared", "other", "other"]⟩]),
              (["shared", "other", "other.tsx"],
                [⟨2, ["routes", "cycle", "index"]⟩])]⟩
            ["routes", "cycle", "index.tsx"] none = .ok (r, c') →
            r.Nodup) :=
  ⟨trivial, c6_walk_termination _ ["routes", "cycle", "index.tsx"] none
    trivial⟩

/-- C9: in the server source emitted by `GenerateServer`, each route's
server-data map literal (built by `sdEntries`, the entry construction of
`writeMain`'s route loop) never contains an entry under the layout's
directory key `.` — a `.` in the route's dependency list is skipped —
its first entry is the layout entry under the key `main` whenever a
layout with handler functions exists, and (as long as no dependency
directory is literally named `main`) the key `main` occurs at most
once. -/
theorem c9_layout_entry_unique (hasLayout : Bool) (layout : codegen.RouteFile)
    (aliasM : String → Option codegen.serverImport)
    (deps : List (String × List String)) (routeDir : String) :
    (∀ e ∈ codegen.sdEntries hasLayout layout aliasM deps routeDir, e.1 ≠ ".") ∧
    (hasLayout = true ∧ layout.Funcs ≠ [] →
      ∃ c, (codegen.sdEntries hasLayout layout aliasM deps routeDir).head? =
        some ("main", c)) ∧
    ("main" ∉ (deps.lookup routeDir).getD [] →
      ((codegen.sdEntries hasLayout layout aliasM deps routeDir).filter
        (fun e => e.1 = "main")).length ≤ 1) := by
  refine ⟨?_, ?_, ?_⟩
  · intro e he
    unfold codegen.sdEntries at he
    simp only [List.mem_append] at he
    rcases he with h | h
    · by_cases hc : hasLayout = true ∧ layout.Funcs ≠ []
      · rw [if_pos hc] at h
        simp only [List.mem_singleton] at h
        subst h
        intro hx
        exact absurd hx (show ¬("main" = ".") by decide)
      · rw [if_neg hc] at h
        simp at h
    · rw [List.mem_filterMap] at h
      obtain ⟨a, ha, hfa⟩ := h
      by_cases had : a = "."
      · rw [if_pos had] at hfa
        exact Option.noConfusion hfa
      · rw [if_neg had] at hfa
        cases hA : aliasM a with
        | none => rw [hA] at hfa; exact Option.noConfusion hfa
        | some imp =>
          rw [hA] at hfa
          cases hfa
          exact had
  · intro h
    unfold codegen.sdEntries
    rw [if_pos h]
    exact ⟨_, rfl⟩
  · intro hm
    unfold codegen.sdEntries
    rw [List.filter_append, List.length_append]
    have hdeps : (((deps.lookup routeDir).getD []).filterMap (fun depDir =>
        if depDir = "." then none
        else
          match aliasM depDir with
          | none => none
          | some imp =>
            some (depDir, codegen.ssrCall imp.Alias imp.HasContext))).filter
          (fun e => decide (e.1 = "main")) = [] := by
      rw [List.filter_eq_nil_iff]
      intro e he
      rw [List.mem_filterMap] at he
      obtain ⟨a, ha, hfa⟩ := he
      by_cases had : a = "."
      · rw [if_pos had] at hfa
        exact Option.noConfusion hfa
      · rw [if_neg had] at hfa
        cases hA : aliasM a with
        | none => rw [hA] at hfa; exact Option.noConfusion hfa
        | some imp =>
          rw [hA] at hfa
          cases hfa
          simp only [decide_eq_true_eq]
          intro hcc
          exact hm (hcc ▸ ha)
    rw [hdeps]
    simp only [List.length_nil, Nat.add_zero]
    by_cases hc : hasLayout = true ∧ layout.Funcs ≠ []
    · rw [if_pos hc]
      exact List.length_filter_le _ _
    · rw [if_neg hc]
      simp

/-- Witness for C9: a concrete route whose dependency list contains the
layout directory `.` itself plus an ordinary and an unknown directory. -/
theorem c9_layout_entry_unique_witness :
    (∀ e ∈ codegen.sdEntries true ⟨".", "app", [⟨"SSR", "Layout", true⟩], []⟩
        (fun d => if d = "." then some ⟨"app", "m", ".", true⟩
          else if d = "widgets" then some ⟨"widgets", "m/widgets", "widgets", false⟩
          else none)
        [("routes/index", [".", "widgets", "lib/missing"])] "routes/index",
      e.1 ≠ ".") ∧
    (∃ c, (codegen.sdEntries true ⟨".", "app", [⟨"SSR", "Layout", true⟩], []⟩
        (fun d => if d = "." then some ⟨"app", "m", ".", true⟩
          else if d = "widgets" then some ⟨"widgets", "m/widgets", "widgets", false⟩
          else none)
        [("routes/index", [".", "widgets", "lib/missing"])] "routes/index").head? =
      some ("main", c)) ∧
    ((codegen.sdEntries true ⟨".", "app", [⟨"SSR", "Layout", true⟩], []⟩
        (fun d => if d = "." then some ⟨"app", "m", ".", true⟩
          else if d = "widgets" then some ⟨"widgets", "m/widgets", "widgets", false⟩
          else none)
        [("routes/index", [".", "widgets", "lib/missing"])] "routes/index").filter
      (fun e => e.1 = "main")).length ≤ 1 := by
  have h := c9_layout_entry_unique true ⟨".", "app", [⟨"SSR", "Layout", true⟩], []⟩
    (fun d => if d = "." then some ⟨"app", "m", ".", true⟩
      else if d = "widgets" then some ⟨"widgets", "m/widgets", "widgets", false⟩
      else none)
    [("routes/index", [".", "widgets", "lib/missing"])] "routes/index"
  exact ⟨h.1, h.2.1 ⟨rfl, List.cons_ne_nil _ _⟩, h.2.2 (by decide)⟩

namespace codegen

lemma lookup_mem_pairs {K α : Type} [BEq K] [LawfulBEq K] [DecidableEq K] (k : K) (v : α) :
    ∀ l : List (K × α), l.lookup k = some v → (k, v) ∈ l := by
  intro l
  induction l with
  | nil =>
    intro h
    cases h
  | cons e rest ih =>
    obtain ⟨k', v'⟩ := e
    intro h
    simp only [List.lookup] at h
    cases hb : (k == k') with
    | true =>
      rw [hb] at h
      cases h
      exact (eq_of_beq hb) ▸ List.mem_cons_self _ _
    | false =>
      rw [hb] at h
      exact List.mem_cons_of_mem _ (ih h)

lemma lookup_upsertBy_self {K α : Type} [BEq K] [LawfulBEq K] [DecidableEq K]
    (lt : K → K → Bool) (k : K) (v : α) :
    ∀ l : List (K × α), (upsertBy lt k v l).lookup k = some v := by
  intro l
  induction l with
  | nil => simp [upsertBy, List.lookup]
  | cons e rest ih =>
    obtain ⟨k', v'⟩ := e
    unfold upsertBy
    by_cases h1 : lt k k'
    · rw [if_pos h1]
      simp [List.lookup]
    · rw [if_neg h1]
      by_cases h2 : k = k'
      · rw [if_pos h2]
        simp [List.lookup]
      · rw [if_neg h2]
        have hne : (k == k') = false := by
          rw [beq_eq_false_iff_ne]
          exact h2
        simp only [List.lookup, hne]
        exact ih

lemma lookup_upsertBy_ne {K α : Type} [BEq K] [LawfulBEq K] [DecidableEq K]
    (lt : K → K → Bool) (k : K) (v : α) (k₀ : K) (hne : k₀ ≠ k) :
    ∀ l : List (K × α),
      (upsertBy lt k v l).lookup k₀ = l.lookup k₀ := by
  intro l
  have hkb : (k₀ == k) = false := by
    rw [beq_eq_false_iff_ne]
    exact hne
  induction l with
  | nil => simp [upsertBy, List.lookup, hkb]
  | cons e rest ih =>
    obtain ⟨k', v'⟩ := e
    unfold upsertBy
    by_cases h1 : lt k k'
    · rw [if_pos h1]
      simp only [List.lookup, hkb]
    · rw [if_neg h1]
      by_cases h2 : k = k'
      · rw [if_pos h2]
        subst h2
        simp only [List.lookup, hkb]
      · rw [if_neg h2]
        simp only [List.lookup]
        cases hb : (k₀ == k') with
        | true => rfl
        | false => exact ih

lemma mem_upsertBy {K α : Type} [DecidableEq K]
    (lt : K → K → Bool) (k : K) (v : α) :
    ∀ (l : List (K × α)) (x : K × α), x ∈ upsertBy lt k v l →
      x = (k, v) ∨ x ∈ l := by
  intro l
  induction l with
  | nil =>
    intro x hx
    simp [upsertBy] at hx
    exact Or.inl hx
  | cons e rest ih =>
    obtain ⟨k', v'⟩ := e
    intro x hx
    unfold upsertBy at hx
    by_cases h1 : lt k k'
    · rw [if_pos h1] at hx
      rcases List.mem_cons.mp hx with h | h
      · exact Or.inl h
      · exact Or.inr h
    · rw [if_neg h1] at hx
      by_cases h2 : k = k'
      · rw [if_pos h2] at hx
        rcases List.mem_cons.mp hx with h | h
        · exact Or.inl h
        · exact Or.inr (List.mem_cons_of_mem _ h)
      · rw [if_neg h2] at hx
        rcases List.mem_cons.mp hx with h | h
        · exact Or.inr (h ▸ List.mem_cons_self _ _)
        · rcases ih x h with h' | h'
          · exact Or.inl h'
          · exact Or.inr (List.mem_cons_of_mem _ h')

lemma pw_upsertBy {K α : Type} [DecidableEq K] (lt : K → K → Bool)
    (htr : ∀ a b c, lt a b = true → lt b c = true → lt a c = true)
    (htot : ∀ a b, lt a b = false → lt b a = false → a = b)
    (k : K) (v : α) :
    ∀ l : List (K × α), pwLt lt l → pwLt lt (upsertBy lt k v l) := by
  intro l
  induction l with
  | nil =>
    intro _
    simp [upsertBy, pwLt]
  | cons e rest ih =>
    obtain ⟨k', v'⟩ := e
    intro hpw
    simp only [pwLt, List.pairwise_cons] at hpw
    obtain ⟨hhd, htl⟩ := hpw
    unfold upsertBy
    by_cases h1 : lt k k'
    · rw [if_pos h1]
      simp only [pwLt, List.pairwise_cons]
      refine ⟨?_, hhd, htl⟩
      intro b hb
      rcases List.mem_cons.mp hb with h | h
      · rw [h]
        exact h1
      · exact htr _ _ _ h1 (hhd b h)
    · rw [if_neg h1]
      by_cases h2 : k = k'
      · rw [if_pos h2]
        subst h2
        simp only [pwLt, List.pairwise_cons]
        exact ⟨hhd, htl⟩
      · rw [if_neg h2]
        simp only [pwLt, List.pairwise_cons]
        constructor
        · intro b hb
          rcases mem_upsertBy lt k v rest b hb with h | h
          · rw [h]
            cases hlt : lt k' k with
            | true => rfl
            | false =>
              refine absurd (htot k k' ?_ hlt) h2
              cases hx : lt k k' with
              | true => exact absurd hx h1
              | false => rfl
          · exact hhd b h
        · have := ih htl
          simpa [pwLt] using this

lemma mem_deleteBy {K α : Type} [DecidableEq K] (k : K) :
    ∀ (l : List (K × α)) (x : K × α), x ∈ deleteBy k l → x ∈ l := by
  intro l
  induction l with
  | nil =>
    intro x hx
    simp [deleteBy] at hx
  | cons e rest ih =>
    obtain ⟨k', v'⟩ := e
    intro x hx
    unfold deleteBy at hx
    by_cases h1 : k' = k
    · rw [if_pos h1] at hx
      exact List.mem_cons_of_mem _ hx
    · rw [if_neg h1] at hx
      rcases List.mem_cons.mp hx with h | h
      · exact h ▸ List.mem_cons_self _ _
      · exact List.mem_cons_of_mem _ (ih x h)

lemma pw_deleteBy {K α : Type} [DecidableEq K] (lt : K → K → Bool)
    (k : K) :
    ∀ l : List (K × α), pwLt lt l → pwLt lt (deleteBy k l) := by
  intro l
  induction l with
  | nil =>
    intro _
    simp [deleteBy, pwLt]
  | cons e rest ih =>
    obtain ⟨k', v'⟩ := e
    intro hpw
    simp only [pwLt, List.pairwise_cons] at hpw
    obtain ⟨hhd, htl⟩ := hpw
    unfold deleteBy
    by_cases h1 : k' = k
    · rw [if_pos h1]
      exact htl
    · rw [if_neg h1]
      simp only [pwLt, List.pairwise_cons]
      refine ⟨fun b hb => hhd b (mem_deleteBy k rest b hb), ?_⟩
      have := ih htl
      simpa [pwLt] using this

lemma lookup_deleteBy_ne {K α : Type} [BEq K] [LawfulBEq K] [DecidableEq K] (k k₀ : K)
    (hne : k₀ ≠ k) :
    ∀ l : List (K × α), (deleteBy k l).lookup k₀ = l.lookup k₀ := by
  intro l
  induction l with
  | nil => simp [deleteBy]
  | cons e rest ih =>
    obtain ⟨k', v'⟩ := e
    unfold deleteBy
    by_cases h1 : k' = k
    · rw [if_pos h1]
      subst h1
      have hb : (k₀ == k') = false := by
        rw [beq_eq_false_iff_ne]
        exact hne
      simp only [List.lookup, hb]
    · rw [if_neg h1]
      simp only [List.lookup]
      cases hb : (k₀ == k') with
      | true => rfl
      | false => exact ih

lemma lookup_deleteBy_self {K α : Type} [BEq K] [LawfulBEq K] [DecidableEq K]
    (lt : K → K → Bool) (hir : ∀ a, lt a a = false) (k : K) :
    ∀ l : List (K × α), pwLt lt l → (deleteBy k l).lookup k = none := by
  intro l
  induction l with
  | nil =>
    intro _
    simp [deleteBy]
  | cons e rest ih =>
    obtain ⟨k', v'⟩ := e
    intro hpw
    simp only [pwLt, List.pairwise_cons] at hpw
    obtain ⟨hhd, htl⟩ := hpw
    unfold deleteBy
    by_cases h1 : k' = k
    · rw [if_pos h1]
      subst h1
      cases hl : rest.lookup k' with
      | none => rfl
      | some w =>
        have hmem := lookup_mem_pairs k' w rest hl
        have := hhd _ hmem
        rw [hir k'] at this
        cases this
    · rw [if_neg h1]
      have hb : (k == k') = false := by
        rw [beq_eq_false_iff_ne]
        exact fun hc => h1 hc.symm
      simp only [List.lookup, hb]
      refine ih ?_
      simpa [pwLt] using htl

lemma pwLt_ext {K α : Type} [BEq K] [LawfulBEq K] [DecidableEq K] (lt : K → K → Bool)
    (hir : ∀ a, lt a a = false)
    (htr : ∀ a b c, lt a b = true → lt b c = true → lt a c = true) :
    ∀ l₁ l₂ : List (K × α), pwLt lt l₁ → pwLt lt l₂ →
      (∀ k, l₁.lookup k = l₂.lookup k) → l₁ = l₂ := by
  intro l₁
  induction l₁ with
  | nil =>
    intro l₂ _ _ hl
    cases l₂ with
    | nil => rfl
    | cons e rest =>
      have := hl e.1
      simp only [List.lookup_nil, List.lookup, beq_self_eq_true] at this
      cases this
  | cons e₁ t₁ ih =>
    intro l₂ hp₁ hp₂ hl
    obtain ⟨k₁, v₁⟩ := e₁
    cases l₂ with
    | nil =>
      have := hl k₁
      simp only [List.lookup_nil, List.lookup, beq_self_eq_true] at this
      cases this
    | cons e₂ t₂ =>
      obtain ⟨k₂, v₂⟩ := e₂
      simp only [pwLt, List.pairwise_cons] at hp₁ hp₂
      obtain ⟨hhd₁, htl₁⟩ := hp₁
      obtain ⟨hhd₂, htl₂⟩ := hp₂
      by_cases hk : k₂ = k₁
      · subst hk
        have hv := hl k₂
        simp only [List.lookup, beq_self_eq_true] at hv
        cases hv
        have hrest : ∀ k, t₁.lookup k = t₂.lookup k := by
          intro k
          by_cases hkk : k = k₂
          · subst hkk
            cases h₁ : t₁.lookup k with
            | none =>
              cases h₂ : t₂.lookup k with
              | none => rfl
              | some w =>
                have := hhd₂ _ (lookup_mem_pairs k w t₂ h₂)
                rw [hir k] at this
                cases this
            | some w =>
              have := hhd₁ _ (lookup_mem_pairs k w t₁ h₁)
              rw [hir k] at this
              cases this
          · have := hl k
            have hb : (k == k₂) = false := by
              rw [beq_eq_false_iff_ne]
              exact hkk
            simp only [List.lookup, hb] at this
            exact this
        rw [ih t₂ (by simpa [pwLt] using htl₁) (by simpa [pwLt] using htl₂)
          hrest]
      · exfalso
        have h₁ : List.lookup k₁ ((k₂, v₂) :: t₂) = some v₁ := by
          rw [← hl k₁]
          simp [List.lookup]
        have hb : (k₁ == k₂) = false := by
          rw [beq_eq_false_iff_ne]
          exact fun hc => hk hc.symm
        simp only [List.lookup, hb] at h₁
        have hmem₁ := hhd₂ _ (lookup_mem_pairs k₁ v₁ t₂ h₁)
        have h₂ : List.lookup k₂ ((k₁, v₁) :: t₁) = some v₂ := by
          rw [hl k₂]
          simp [List.lookup]
        have hb2 : (k₂ == k₁) = false := by
          rw [beq_eq_false_iff_ne]
          exact hk
        simp only [List.lookup, hb2] at h₂
        have hmem₂ := hhd₁ _ (lookup_mem_pairs k₂ v₂ t₁ h₂)
        have := htr _ _ _ hmem₁ hmem₂
        rw [hir k₂] at this
        cases this

lemma strLt_irrefl (a : String) : strLt a a = false := by
  cases h : strLt a a with
  | false => rfl
  | true => exact absurd (strLt_iff_lt a a |>.mp h) (lt_irrefl a)

lemma strLt_trans (a b c : String) (h₁ : strLt a b = true)
    (h₂ : strLt b c = true) : strLt a c = true :=
  (strLt_iff_lt a c).mpr
    (lt_trans ((strLt_iff_lt a b).mp h₁) ((strLt_iff_lt b c).mp h₂))

lemma strLt_total (a b : String) (h₁ : strLt a b = false)
    (h₂ : strLt b a = false) : a = b := by
  rcases lt_trichotomy a b with h | h | h
  · rw [(strLt_iff_lt a b).mpr h] at h₁
    cases h₁
  · exact h
  · rw [(strLt_iff_lt b a).mpr h] at h₂
    cases h₂

lemma segLt_irrefl (a : List String) : segLt a a = false := by
  induction a with
  | nil => rfl
  | cons x xs ih =>
    unfold segLt
    rw [if_neg (by rw [strLt_irrefl x]; exact fun hc => Bool.noConfusion hc)]
    rw [if_neg (by rw [strLt_irrefl x]; exact fun hc => Bool.noConfusion hc)]
    exact ih

lemma boolFalse {b : Bool} (h : ¬ b = true) : b = false := by
  cases b
  · rfl
  · exact absurd rfl h

lemma segLt_trans : ∀ a b c : List String, segLt a b = true →
    segLt b c = true → segLt a c = true := by
  intro a
  induction a with
  | nil =>
    intro b c h₁ h₂
    cases b with
    | nil => exact h₂
    | cons y ys =>
      cases c with
      | nil => cases h₂
      | cons z zs => rfl
  | cons x xs ih =>
    intro b c h₁ h₂
    cases b with
    | nil => cases h₁
    | cons y ys =>
      cases c with
      | nil => cases h₂
      | cons z zs =>
        unfold segLt at h₁ h₂ ⊢
        by_cases hxy : strLt x y = true
        · by_cases hyz : strLt y z = true
          · rw [if_pos (strLt_trans x y z hxy hyz)]
          · rw [if_neg hyz] at h₂
            by_cases hzy : strLt z y = true
            · rw [if_pos hzy] at h₂
              cases h₂
            · have hyzeq : y = z :=
                strLt_total y z (boolFalse hyz) (boolFalse hzy)
              subst hyzeq
              rw [if_pos hxy]
        · rw [if_neg hxy] at h₁
          by_cases hyx : strLt y x = true
          · rw [if_pos hyx] at h₁
            cases h₁
          · have hxyeq : x = y :=
              strLt_total x y (boolFalse hxy) (boolFalse hyx)
            subst hxyeq
            rw [if_neg hyx] at h₁
            by_cases hxz : strLt x z = true
            · rw [if_pos hxz]
            · rw [if_neg hxz] at h₂ ⊢
              by_cases hzx : strLt z x = true
              · rw [if_pos hzx] at h₂
                cases h₂
              · rw [if_neg hzx] at h₂ ⊢
                exact ih ys zs h₁ h₂

lemma segLt_total : ∀ a b : List String, segLt a b = false →
    segLt b a = false → a = b := by
  intro a
  induction a with
  | nil =>
    intro b h₁ _
    cases b with
    | nil => rfl
    | cons y ys => cases h₁
  | cons x xs ih =>
    intro b h₁ h₂
    cases b with
    | nil => cases h₂
    | cons y ys =>
      unfold segLt at h₁ h₂
      by_cases hxy : strLt x y = true
      · rw [if_pos hxy] at h₁
        cases h₁
      · rw [if_neg hxy] at h₁
        by_cases hyx : strLt y x = true
        · rw [if_pos hyx] at h₂
          cases h₂
        · have hx : x = y := strLt_total x y (boolFalse hxy) (boolFalse hyx)
          subst hx
          rw [if_neg hxy] at h₁
          rw [if_neg hyx] at h₂
          rw [if_neg hxy] at h₂
          rw [ih ys h₁ h₂]

end codegen

/-- **C2 counterexample.** Editing the root layout's package name to
`main` makes `Regenerate` fail in `GenerateServer` — but only *after*
step 3 already re-parsed the directory and overwrote its parsed-file
table row, so the failing call returns with the parsed-file table
mutated, refuting the claim that a failing `Regenerate` mutates no
persisted state. -/
theorem c2_counterexample :
    codegen.generate codegen.fsC2a "m" =
      .ok (codegen.getSt (codegen.generate codegen.fsC2a "m")) ∧
    (codegen.regenerate codegen.fsC2b "m"
      (codegen.getSt (codegen.generate codegen.fsC2a "m"))
      [⟨["main.go"], "go"⟩]).1.isSome = true ∧
    (codegen.regenerate codegen.fsC2b "m"
      (codegen.getSt (codegen.generate codegen.fsC2a "m"))
      [⟨["main.go"], "go"⟩]).2.filesByDir ≠
      (codegen.getSt (codegen.generate codegen.fsC2a "m")).filesByDir := by
  refine ⟨rfl, rfl, by decide⟩

/-- C2 (amended): a failing `Regenerate` leaves the dependency map, the
hydration-entry table and the previous server-entry text exactly as they
were before the call (the parsed-file table and the filesystem cache may
retain the updates performed before the failure — see the
counterexample). -/
theorem c2_failed_regenerate_state (fs : codegen.FS) (modulePath : String)
    (st : codegen.GenState) (events : List codegen.ChangeEvent)
    (h : (codegen.regenerate fs modulePath st events).1.isSome = true) :
    (codegen.regenerate fs modulePath st events).2.deps = st.deps ∧
    (codegen.regenerate fs modulePath st events).2.entries = st.entries ∧
    (codegen.regenerate fs modulePath st events).2.prevServerCode
      = st.prevServerCode := by
  unfold codegen.regenerate at h ⊢
  generalize hA : codegen.applyGoDirs fs (codegen.goChangedDirsOf events)
    st.filesByDir = res at h ⊢
  obtain ⟨oe, pairs1⟩ := res
  cases oe with
  | some e => exact ⟨rfl, rfl, rfl⟩
  | none =>
    dsimp only at h ⊢
    generalize hB : codegen.analyzeAll fs (codegen.depJobsOf fs pairs1) []
      (st.cache.map fun c =>
        codegen.invalidatePaths c (events.map codegen.ChangeEvent.Path))
      = res2 at h ⊢
    obtain ⟨oe2, newDeps, c2⟩ := res2
    cases oe2 with
    | some e => exact ⟨rfl, rfl, rfl⟩
    | none =>
      dsimp only at h ⊢
      generalize hC : codegen.GenerateServer modulePath
        (pairs1.map Prod.snd) newDeps = res3 at h ⊢
      cases res3 with
      | error e => exact ⟨rfl, rfl, rfl⟩
      | ok code => simp at h

/-- Witness for C2 (amended): the counterexample's failing call indeed
keeps the dependency map, entry table and previous server text. -/
theorem c2_failed_regenerate_state_witness :
    (codegen.regenerate codegen.fsC2b "m"
      (codegen.getSt (codegen.generate codegen.fsC2a "m"))
      [⟨["main.go"], "go"⟩]).1.isSome = true ∧
    ((codegen.regenerate codegen.fsC2b "m"
      (codegen.getSt (codegen.generate codegen.fsC2a "m"))
      [⟨["main.go"], "go"⟩]).2.deps =
        (codegen.getSt (codegen.generate codegen.fsC2a "m")).deps ∧
    (codegen.regenerate codegen.fsC2b "m"
      (codegen.getSt (codegen.generate codegen.fsC2a "m"))
      [⟨["main.go"], "go"⟩]).2.entries =
        (codegen.getSt (codegen.generate codegen.fsC2a "m")).entries ∧
    (codegen.regenerate codegen.fsC2b "m"
      (codegen.getSt (codegen.generate codegen.fsC2a "m"))
      [⟨["main.go"], "go"⟩]).2.prevServerCode =
        (codegen.getSt (codegen.generate codegen.fsC2a "m")).prevServerCode) :=
  ⟨rfl, c2_failed_regenerate_state codegen.fsC2b "m"
    (codegen.getSt (codegen.generate codegen.fsC2a "m"))
    [⟨["main.go"], "go"⟩] rfl⟩

/-- **C1 counterexample.** A change event for a `.go` file under
`vendor/` makes `Regenerate` call `ParseSingleDir`, which — unlike
`ParseDir`'s walk — performs no pruned-directory check, so the vendored
directory is parsed into the parsed-file table; a fresh `Generate` on
the same final tree prunes `vendor/` and omits it, so the incremental
and from-scratch parsed-file tables differ even though both runs
succeed. -/
theorem c1_counterexample :
    codegen.generate codegen.fsC2a "m" =
      .ok (codegen.getSt (codegen.generate codegen.fsC2a "m")) ∧
    codegen.generate codegen.fsC1b "m" =
      .ok (codegen.getSt (codegen.generate codegen.fsC1b "m")) ∧
    (codegen.regenerate codegen.fsC1b "m"
      (codegen.getSt (codegen.generate codegen.fsC2a "m"))
      [⟨["vendor", "tool", "tool.go"], "go"⟩]).1 = none ∧
    (codegen.regenerate codegen.fsC1b "m"
      (codegen.getSt (codegen.generate codegen.fsC2a "m"))
      [⟨["vendor", "tool", "tool.go"], "go"⟩]).2.filesByDir ≠
      (codegen.getSt (codegen.generate codegen.fsC1b "m")).filesByDir := by
  refine ⟨rfl, rfl, rfl, by decide⟩

namespace codegen

lemma lookup_none_of_not_mem {K α : Type} [BEq K] [LawfulBEq K] [DecidableEq K] (k : K)
    (l : List (K × α)) (h : k ∉ l.map Prod.fst) : l.lookup k = none := by
  cases hl : l.lookup k with
  | none => rfl
  | some v =>
    exact absurd (List.mem_map_of_mem Prod.fst (lookup_mem_pairs k v l hl)) h

lemma mem_keys_lookup_isSome {K α : Type} [BEq K] [LawfulBEq K] [DecidableEq K] (k : K) :
    ∀ l : List (K × α), k ∈ l.map Prod.fst → (l.lookup k).isSome = true := by
  intro l
  induction l with
  | nil =>
    intro h
    simp at h
  | cons e rest ih =>
    obtain ⟨k', v'⟩ := e
    intro h
    simp only [List.map_cons, List.mem_cons] at h
    simp only [List.lookup]
    cases hb : (k == k') with
    | true => rfl
    | false =>
      rcases h with h | h
      · rw [beq_eq_false_iff_ne] at hb
        exact absurd h hb
      · exact ih h

lemma nodupSegKeys_cons (x : List String) (xs : List (List String))
    (h : nodupSegKeys (x :: xs) = true) :
    x ∉ xs ∧ nodupSegKeys xs = true := by
  unfold nodupSegKeys at h
  by_cases hm : x ∈ xs
  · rw [if_pos hm] at h
    cases h
  · rw [if_neg hm] at h
    exact ⟨hm, h⟩

lemma dedupSegsAux_sub : ∀ (l seen : List (List String))
    (x : List String), x ∈ dedupSegsAux l seen → x ∈ l := by
  intro l
  induction l with
  | nil =>
    intro seen x hx
    simp [dedupSegsAux] at hx
  | cons y ys ih =>
    intro seen x hx
    unfold dedupSegsAux at hx
    by_cases hm : y ∈ seen
    · rw [if_pos hm] at hx
      exact List.mem_cons_of_mem _ (ih seen x hx)
    · rw [if_neg hm] at hx
      rcases List.mem_cons.mp hx with h | h
      · exact h ▸ List.mem_cons_self _ _
      · exact List.mem_cons_of_mem _ (ih (y :: seen) x h)

lemma dedupSegsAux_nodup : ∀ (l seen : List (List String)),
    (dedupSegsAux l seen).Nodup
      ∧ ∀ x ∈ dedupSegsAux l seen, x ∉ seen := by
  intro l
  induction l with
  | nil =>
    intro seen
    exact ⟨List.nodup_nil, by intro x hx; simp [dedupSegsAux] at hx⟩
  | cons y ys ih =>
    intro seen
    unfold dedupSegsAux
    by_cases hm : y ∈ seen
    · rw [if_pos hm]
      exact ih seen
    · rw [if_neg hm]
      obtain ⟨hnd, hns⟩ := ih (y :: seen)
      constructor
      · rw [List.nodup_cons]
        refine ⟨?_, hnd⟩
        intro hc
        exact hns y hc (List.mem_cons_self _ _)
      · intro x hx
        rcases List.mem_cons.mp hx with h | h
        · exact h ▸ hm
        · intro hc
          exact hns x h (List.mem_cons_of_mem _ hc)

lemma goChangedDirs_nodup (events : List ChangeEvent) :
    (goChangedDirsOf events).Nodup :=
  (dedupSegsAux_nodup _ []).1

lemma goChangedDirs_sub_evicted (events : List ChangeEvent) (d : List String)
    (h : d ∈ goChangedDirsOf events) :
    d ∈ (events.map ChangeEvent.Path).map List.dropLast := by
  have hmem := dedupSegsAux_sub _ [] d h
  rw [List.mem_filterMap] at hmem
  obtain ⟨ev, hev, hd⟩ := hmem
  by_cases hk : ev.Kind = "go"
  · rw [if_pos hk] at hd
    cases hd
    exact List.mem_map_of_mem _ (List.mem_map_of_mem _ hev)
  · rw [if_neg hk] at hd
    cases hd

lemma cacheSound_agrees (c : Cache) (fs : FS) (h : cacheSound c fs) :
    cacheAgrees c fs := by
  constructor
  · intro p content hl
    exact h.1 _ (lookup_mem_pairs p content c.files hl)
  · intro d b hl
    exact h.2 _ (lookup_mem_pairs d b c.hasGo hl)

lemma cacheSoundO_agreesO (c : Option Cache) (fs : FS)
    (h : cacheSoundO c fs) : cacheAgreesO c fs := by
  cases c with
  | none => trivial
  | some c => exact cacheSound_agrees c fs h

lemma cacheRead_soundPreserve (c : Cache) (fs : FS) (p : List String)
    (h : cacheSound c fs) : cacheSound (cacheRead c fs p).2 fs := by
  unfold cacheRead
  cases hl : c.files.lookup p with
  | some content => exact h
  | none =>
    cases hf : fs.tsx.lookup p with
    | none => exact h
    | some content =>
      constructor
      · intro e he
        rcases List.mem_cons.mp he with h' | h'
        · rw [h']
          exact hf
        · exact h.1 e h'
      · exact h.2

lemma cacheHasGo_soundPreserve (c : Cache) (fs : FS) (d : List String)
    (h : cacheSound c fs) : cacheSound (cacheHasGo c fs d).2 fs := by
  unfold cacheHasGo
  cases hl : c.hasGo.lookup d with
  | some b => exact h
  | none =>
    constructor
    · exact h.1
    · intro e he
      rcases List.mem_cons.mp he with h' | h'
      · rw [h']
      · exact h.2 e h'

lemma walkLoop_soundPreserve (fs : FS) :
    ∀ (n : Nat) (pending : List (List String)) (st st' : WalkSt),
      walkLoop fs n pending st = .ok st' →
      cacheSoundO st.cache fs → cacheSoundO st'.cache fs := by
  intro n
  induction n with
  | zero =>
    intro pending st st' h hs
    unfold walkLoop at h
    by_cases hp : pending = []
    · rw [if_pos hp] at h
      cases h
      exact hs
    · rw [if_neg hp] at h
      cases h
  | succ n ih =>
    intro pending st st' h hs
    cases pending with
    | nil =>
      unfold walkLoop at h
      cases h
      exact hs
    | cons p rest =>
      obtain ⟨v, g, copt⟩ := st
      dsimp only at hs
      unfold walkLoop at h
      by_cases hvis : (List.contains v p : Bool)
      · rw [if_pos (by exact hvis)] at h
        exact ih rest _ st' h hs
      · rw [if_neg (by exact fun hc => hvis hc)] at h
        simp only at h
        cases copt with
        | none =>
          cases hread : fs.tsx.lookup p with
          | none =>
            rw [hread] at h
            cases h
          | some specs =>
            rw [hread] at h
            simp only at h
            exact ih _ _ st' h trivial
        | some c =>
          cases hread : (cacheRead c fs p).1 with
          | none =>
            rw [hread] at h
            cases h
          | some specs =>
            rw [hread] at h
            simp only at h
            refine ih _ _ st' h ?_
            exact cacheHasGo_soundPreserve _ fs p.dropLast
              (cacheRead_soundPreserve c fs p hs)

lemma walkLoop_cache (fs : FS) :
    ∀ (n : Nat) (pending : List (List String)) (v : List (List String))
      (g : List String) (c : Option Cache), cacheAgreesO c fs →
      ((walkLoop fs n pending ⟨v, g, c⟩).map fun st =>
          (st.visited, st.goDirs))
        = ((walkLoop fs n pending ⟨v, g, none⟩).map fun st =>
            (st.visited, st.goDirs)) := by
  intro n
  induction n with
  | zero =>
    intro pending v g c hc
    unfold walkLoop
    by_cases hp : pending = []
    · rw [if_pos hp]
      rw [if_pos hp]
      rfl
    · rw [if_neg hp]
      rw [if_neg hp]
  | succ n ih =>
    intro pending v g c hc
    cases pending with
    | nil => rfl
    | cons p rest =>
      unfold walkLoop
      by_cases hvis : (List.contains v p : Bool)
      · rw [if_pos (by exact hvis)]
        rw [if_pos (by exact hvis)]
        exact ih rest v g c hc
      · rw [if_neg (by exact fun hc' => hvis hc')]
        rw [if_neg (by exact fun hc' => hvis hc')]
        simp only
        cases c with
        | none => rfl
        | some cc =>
          have hcr := cacheRead_sound cc fs p hc
          cases hread : fs.tsx.lookup p with
          | none =>
            have h2 : (cacheRead cc fs p).1 = none := by
              rw [hcr.1, hread]
            rw [h2]
          | some specs =>
            have h2 : (cacheRead cc fs p).1 = some specs := by
              rw [hcr.1, hread]
            rw [h2]
            simp only
            have hhg := cacheHasGo_sound (cacheRead cc fs p).2 fs
              p.dropLast hcr.2
            rw [hhg.1]
            exact ih _ _ _ _ hhg.2

lemma resolveImportPath_present (fs : FS) (dir : List String) (sp : Spec)
    (p : List String) (h : resolveImportPath fs dir sp = some p) :
    (fs.tsx.lookup p).isSome = true := by
  unfold resolveImportPath at h
  dsimp only at h
  cases hw : withTsxExt (upDirs sp.ups dir ++ sp.segs) with
  | some c1 =>
    rw [hw] at h
    simp only at h
    by_cases h1 : (fs.tsx.lookup c1).isSome = true
    · rw [if_pos h1] at h
      cases h
      exact h1
    · rw [if_neg h1] at h
      by_cases h2 : (fs.tsx.lookup
          (upDirs sp.ups dir ++ sp.segs ++ ["index.tsx"])).isSome = true
      · rw [if_pos h2] at h
        cases h
        exact h2
      · rw [if_neg h2] at h
        cases h
  | none =>
    rw [hw] at h
    simp only at h
    by_cases h2 : (fs.tsx.lookup
        (upDirs sp.ups dir ++ sp.segs ++ ["index.tsx"])).isSome = true
    · rw [if_pos h2] at h
      cases h
      exact h2
    · rw [if_neg h2] at h
      cases h

lemma walkLoop_ok (fs : FS) :
    ∀ (n : Nat) (pending : List (List String)) (st : WalkSt),
      pending.length + pendWeight fs st.visited < n →
      cacheAgreesO st.cache fs →
      (∀ p ∈ pending, (fs.tsx.lookup p).isSome = true) →
      ∃ st', walkLoop fs n pending st = .ok st' := by
  intro n
  induction n with
  | zero =>
    intro pending st h _ _
    omega
  | succ n ih =>
    intro pending st h hca hpres
    cases pending with
    | nil =>
      exact ⟨st, rfl⟩
    | cons p rest =>
      obtain ⟨v, g, copt⟩ := st
      dsimp only at h hca ⊢
      unfold walkLoop
      by_cases hvis : (List.contains v p : Bool)
      · rw [if_pos (by exact hvis)]
        refine ih rest _ ?_ hca fun q hq => hpres q (List.mem_cons_of_mem _ hq)
        dsimp only
        simp only [List.length_cons] at h
        omega
      · rw [if_neg (by exact fun hc => hvis hc)]
        simp only
        have hplook : (fs.tsx.lookup p).isSome = true :=
          hpres p (List.mem_cons_self _ _)
        cases hread : fs.tsx.lookup p with
        | none =>
          rw [hread] at hplook
          cases hplook
        | some specs =>
          have hchild : ∀ q ∈ (specs.filterMap
              (resolveImportPath fs p.dropLast)) ++ rest,
              (fs.tsx.lookup q).isSome = true := by
            intro q hq
            rcases List.mem_append.mp hq with hq | hq
            · rw [List.mem_filterMap] at hq
              obtain ⟨sp, _, hsp⟩ := hq
              exact resolveImportPath_present fs p.dropLast sp q hsp
            · exact hpres q (List.mem_cons_of_mem _ hq)
          cases copt with
          | none =>
            simp only
            by_cases hg : dirHasGoFile fs p.dropLast
            all_goals {
              first
              | rw [if_pos hg]
              | rw [if_neg hg]
              refine ih _ _ ?_ trivial hchild
              have hvisit := entryWeight_visit fs.tsx p specs v hread hvis
              have hch : (specs.filterMap
                  (resolveImportPath fs p.dropLast)).length ≤ specs.length :=
                List.length_filterMap_le _ _
              simp only [pendWeight, List.length_append,
                List.length_cons] at h ⊢
              omega
            }
          | some c =>
            have hcr := cacheRead_sound c fs p hca
            have h2 : (cacheRead c fs p).1 = some specs := by
              rw [hcr.1, hread]
            rw [h2]
            simp only
            have hhg := cacheHasGo_sound (cacheRead c fs p).2 fs
              p.dropLast hcr.2
            by_cases hg : (cacheHasGo (cacheRead c fs p).2 fs p.dropLast).1
            all_goals {
              first
              | rw [if_pos hg]
              | rw [if_neg hg]
              refine ih _ _ ?_ hhg.2 hchild
              have hvisit := entryWeight_visit fs.tsx p specs v hread hvis
              have hch : (specs.filterMap
                  (resolveImportPath fs p.dropLast)).length ≤ specs.length :=
                List.length_filterMap_le _ _
              simp only [pendWeight, List.length_append,
                List.length_cons] at h ⊢
              omega
            }

lemma analyzeDeps_ok_exists (fs : FS) (entry : List String)
    (c : Option Cache) (hc : cacheAgreesO c fs)
    (hpres : (fs.tsx.lookup entry).isSome = true) :
    ∃ r c', AnalyzeDeps fs entry c = .ok (r, c') := by
  obtain ⟨st', hst⟩ := walkLoop_ok fs (walkFuel fs) [entry] ⟨[], [], c⟩
    (by simp [walkFuel, pendWeight]) hc
    (by
      intro p hp
      rcases List.mem_cons.mp hp with h | h
      · exact h ▸ hpres
      · simp at h)
  refine ⟨sortStrings st'.goDirs, st'.cache, ?_⟩
  unfold AnalyzeDeps
  rw [hst]

lemma analyzeDeps_cacheIrrel (fs : FS) (entry : List String)
    (c : Option Cache) (hc : cacheAgreesO c fs) :
    ((AnalyzeDeps fs entry c).map Prod.fst)
      = ((AnalyzeDeps fs entry none).map Prod.fst) := by
  have h := walkLoop_cache fs (walkFuel fs) [entry] [] [] c hc
  unfold AnalyzeDeps
  cases hL : walkLoop fs (walkFuel fs) [entry] ⟨[], [], c⟩ with
  | error e =>
    rw [hL] at h
    cases hR : walkLoop fs (walkFuel fs) [entry] ⟨[], [], none⟩ with
    | error e' =>
      rw [hR] at h
      simp only [Except.map] at h
      cases h
      rfl
    | ok st =>
      rw [hR] at h
      simp only [Except.map] at h
      cases h
  | ok st =>
    rw [hL] at h
    cases hR : walkLoop fs (walkFuel fs) [entry] ⟨[], [], none⟩ with
    | error e' =>
      rw [hR] at h
      simp only [Except.map] at h
      cases h
    | ok st' =>
      rw [hR] at h
      simp only [Except.map] at h
      have hg : st.goDirs = st'.goDirs :=
        congrArg Prod.snd (Except.ok.inj h)
      simp only [Except.map]
      rw [hg]

lemma analyzeDeps_soundPreserve (fs : FS) (entry : List String)
    (c : Option Cache) (r : List String) (c' : Option Cache)
    (hok : AnalyzeDeps fs entry c = .ok (r, c'))
    (hs : cacheSoundO c fs) : cacheSoundO c' fs := by
  unfold AnalyzeDeps at hok
  cases hres : walkLoop fs (walkFuel fs) [entry] ⟨[], [], c⟩ with
  | error e =>
    rw [hres] at hok
    cases hok
  | ok st =>
    rw [hres] at hok
    have hc := walkLoop_soundPreserve fs (walkFuel fs) [entry]
      ⟨[], [], c⟩ st hres hs
    have hinj := Except.ok.inj hok
    have hcc : st.cache = c' := congrArg Prod.snd hinj
    rw [← hcc]
    exact hc

lemma analyzeAll_ok_eq (fs : FS) :
    ∀ (jobs : List (List String)) (acc : List (String × List String))
      (c₁ c₂ : Option Cache), cacheSoundO c₁ fs → cacheSoundO c₂ fs →
      (∀ d ∈ jobs, (fs.tsx.lookup (d ++ ["index.tsx"])).isSome = true) →
      (analyzeAll fs jobs acc c₁).1 = none ∧
      (analyzeAll fs jobs acc c₁).2.1 = (analyzeAll fs jobs acc c₂).2.1 := by
  intro jobs
  induction jobs with
  | nil =>
    intro acc c₁ c₂ _ _ _
    exact ⟨rfl, rfl⟩
  | cons d rest ih =>
    intro acc c₁ c₂ hs₁ hs₂ hpres
    obtain ⟨r₁, c₁', h₁⟩ := analyzeDeps_ok_exists fs (d ++ ["index.tsx"]) c₁
      (cacheSoundO_agreesO c₁ fs hs₁) (hpres d (List.mem_cons_self _ _))
    obtain ⟨r₂, c₂', h₂⟩ := analyzeDeps_ok_exists fs (d ++ ["index.tsx"]) c₂
      (cacheSoundO_agreesO c₂ fs hs₂) (hpres d (List.mem_cons_self _ _))
    have hr : r₁ = r₂ := by
      have hirr := (analyzeDeps_cacheIrrel fs (d ++ ["index.tsx"]) c₁
        (cacheSoundO_agreesO c₁ fs hs₁)).trans
        (analyzeDeps_cacheIrrel fs (d ++ ["index.tsx"]) c₂
          (cacheSoundO_agreesO c₂ fs hs₂)).symm
      rw [h₁, h₂] at hirr
      simp only [Except.map] at hirr
      exact Except.ok.inj hirr
    have hstep₁ : analyzeAll fs (d :: rest) acc c₁
        = analyzeAll fs rest (upsertBy strLt (dirKey d) r₁ acc) c₁' := by
      simp only [analyzeAll, h₁]
    have hstep₂ : analyzeAll fs (d :: rest) acc c₂
        = analyzeAll fs rest (upsertBy strLt (dirKey d) r₂ acc) c₂' := by
      simp only [analyzeAll, h₂]
    rw [hstep₁, hstep₂, ← hr]
    exact ih (upsertBy strLt (dirKey d) r₁ acc) c₁' c₂'
      (analyzeDeps_soundPreserve fs _ c₁ r₁ c₁' h₁ hs₁)
      (analyzeDeps_soundPreserve fs _ c₂ r₂ c₂' h₂ hs₂)
      fun q hq => hpres q (List.mem_cons_of_mem _ hq)

lemma analyzeAll_soundPreserve (fs : FS) :
    ∀ (jobs : List (List String)) (acc : List (String × List String))
      (c : Option Cache), cacheSoundO c fs →
      cacheSoundO (analyzeAll fs jobs acc c).2.2 fs := by
  intro jobs
  induction jobs with
  | nil =>
    intro acc c hs
    exact hs
  | cons d rest ih =>
    intro acc c hs
    unfold analyzeAll
    cases hA : AnalyzeDeps fs (d ++ ["index.tsx"]) c with
    | error e => exact hs
    | ok pr =>
      obtain ⟨r, c'⟩ := pr
      exact ih _ c' (analyzeDeps_soundPreserve fs _ c r c' hA hs)

lemma parseDirAux_pw : ∀ (l : List (List String × List GoSrcFile))
    (acc : List (List String × RouteFile))
    (out : List (List String × RouteFile)), pwLt segLt acc →
    parseDirAux l acc = .ok out → pwLt segLt out := by
  intro l
  induction l with
  | nil =>
    intro acc out hpw hout
    cases hout
    exact hpw
  | cons e rest ih =>
    obtain ⟨d₀, f₀⟩ := e
    intro acc out hpw hout
    unfold parseDirAux at hout
    by_cases hq : (prunedDir d₀ || f₀.isEmpty) = true
    · rw [if_pos hq] at hout
      exact ih acc out hpw hout
    · rw [if_neg hq] at hout
      cases hp : parseRouteDir (dirKey d₀) f₀ with
      | error e =>
        rw [hp] at hout
        cases hout
      | ok ro =>
        rw [hp] at hout
        cases ro with
        | none => exact ih acc out hpw hout
        | some rf =>
          exact ih _ out
            (pw_upsertBy segLt segLt_trans segLt_total d₀ rf acc hpw) hout

lemma parseDirAux_all_ok : ∀ (l : List (List String × List GoSrcFile))
    (acc out : List (List String × RouteFile)),
    parseDirAux l acc = .ok out →
    ∀ e ∈ l, prunedDir e.1 = false → e.2.isEmpty = false →
      ∃ r, parseRouteDir (dirKey e.1) e.2 = .ok r := by
  intro l
  induction l with
  | nil =>
    intro acc out _ e he
    simp at he
  | cons e₀ rest ih =>
    obtain ⟨d₀, f₀⟩ := e₀
    intro acc out hout e he hpr hemp
    unfold parseDirAux at hout
    by_cases hq : (prunedDir d₀ || f₀.isEmpty) = true
    · rw [if_pos hq] at hout
      rcases List.mem_cons.mp he with h | h
      · exfalso
        rw [h] at hpr hemp
        simp only at hpr hemp
        rw [hpr, hemp] at hq
        cases hq
      · exact ih acc out hout e h hpr hemp
    · rw [if_neg hq] at hout
      cases hp : parseRouteDir (dirKey d₀) f₀ with
      | error e' =>
        rw [hp] at hout
        cases hout
      | ok ro =>
        rw [hp] at hout
        rcases List.mem_cons.mp he with h | h
        · rw [h]
          exact ⟨ro, hp⟩
        · cases ro with
          | none => exact ih acc out hout e h hpr hemp
          | some rf => exact ih _ out hout e h hpr hemp

lemma parseDirAux_ok_of : ∀ (l : List (List String × List GoSrcFile))
    (acc : List (List String × RouteFile)),
    (∀ e ∈ l, prunedDir e.1 = false → e.2.isEmpty = false →
      ∃ r, parseRouteDir (dirKey e.1) e.2 = .ok r) →
    ∃ out, parseDirAux l acc = .ok out := by
  intro l
  induction l with
  | nil =>
    intro acc _
    exact ⟨acc, rfl⟩
  | cons e₀ rest ih =>
    obtain ⟨d₀, f₀⟩ := e₀
    intro acc hall
    unfold parseDirAux
    by_cases hq : (prunedDir d₀ || f₀.isEmpty) = true
    · rw [if_pos hq]
      exact ih acc fun e he => hall e (List.mem_cons_of_mem _ he)
    · rw [if_neg hq]
      have hor := hq
      rw [Bool.or_eq_true] at hor
      push_neg at hor
      obtain ⟨r, hr⟩ := hall (d₀, f₀) (List.mem_cons_self _ _)
        (by
          cases hx : prunedDir d₀ with
          | false => rfl
          | true => exact absurd hx hor.1)
        (by
          cases hx : f₀.isEmpty with
          | false => rfl
          | true => exact absurd hx hor.2)
      rw [hr]
      cases r with
      | none => exact ih acc fun e he => hall e (List.mem_cons_of_mem _ he)
      | some rf =>
        exact ih _ fun e he => hall e (List.mem_cons_of_mem _ he)

lemma parseDirAux_lookup : ∀ (l : List (List String × List GoSrcFile))
    (acc out : List (List String × RouteFile)),
    nodupSegKeys (l.map Prod.fst) = true →
    parseDirAux l acc = .ok out → ∀ d,
    out.lookup d =
      match l.lookup d with
      | none => acc.lookup d
      | some files =>
        match parsedRow d files with
        | some rf => some rf
        | none => acc.lookup d := by
  intro l
  induction l with
  | nil =>
    intro acc out _ hout d
    cases hout
    rfl
  | cons e₀ rest ih =>
    obtain ⟨d₀, f₀⟩ := e₀
    intro acc out hnd hout d
    have hnd' := nodupSegKeys_cons d₀ (rest.map Prod.fst)
      (by simpa using hnd)
    unfold parseDirAux at hout
    by_cases hq : (prunedDir d₀ || f₀.isEmpty) = true
    · rw [if_pos hq] at hout
      have hIH := ih acc out hnd'.2 hout
      by_cases hd : d = d₀
      · subst hd
        have hrest : rest.lookup d = none :=
          lookup_none_of_not_mem d rest hnd'.1
        rw [hIH d, hrest]
        simp only [List.lookup, beq_self_eq_true]
        unfold parsedRow
        rw [if_pos hq]
      · have hbne : (d == d₀) = false := by
          rw [beq_eq_false_iff_ne]
          exact hd
        rw [hIH d]
        simp only [List.lookup, hbne]
    · rw [if_neg hq] at hout
      cases hp : parseRouteDir (dirKey d₀) f₀ with
      | error e =>
        rw [hp] at hout
        cases hout
      | ok ro =>
        rw [hp] at hout
        cases ro with
        | none =>
          have hIH := ih acc out hnd'.2 hout
          by_cases hd : d = d₀
          · subst hd
            have hrest : rest.lookup d = none :=
              lookup_none_of_not_mem d rest hnd'.1
            rw [hIH d, hrest]
            simp only [List.lookup, beq_self_eq_true]
            unfold parsedRow
            rw [if_neg hq, hp]
          · have hbne : (d == d₀) = false := by
              rw [beq_eq_false_iff_ne]
              exact hd
            rw [hIH d]
            simp only [List.lookup, hbne]
        | some rf =>
          have hIH := ih _ out hnd'.2 hout
          by_cases hd : d = d₀
          · subst hd
            have hrest : rest.lookup d = none :=
              lookup_none_of_not_mem d rest hnd'.1
            rw [hIH d, hrest]
            simp only [List.lookup, beq_self_eq_true]
            unfold parsedRow
            rw [if_neg hq, hp]
            simp only
            exact lookup_upsertBy_self segLt d rf acc
          · have hbne : (d == d₀) = false := by
              rw [beq_eq_false_iff_ne]
              exact hd
            rw [hIH d]
            simp only [List.lookup, hbne]
            cases hrl : rest.lookup d with
            | none =>
              simp only
              exact lookup_upsertBy_ne segLt d₀ rf d hd acc
            | some files =>
              simp only
              cases hpr : parsedRow d files with
              | some rf' => rfl
              | none =>
                simp only
                exact lookup_upsertBy_ne segLt d₀ rf d hd acc

lemma applyGoDirs_pw (fs : FS) : ∀ (dirs : List (List String))
    (pairs : List (List String × RouteFile)) (oe : Option GenErr)
    (out : List (List String × RouteFile)),
    applyGoDirs fs dirs pairs = (oe, out) → pwLt segLt pairs →
    pwLt segLt out := by
  intro dirs
  induction dirs with
  | nil =>
    intro pairs oe out hout hpw
    cases hout
    exact hpw
  | cons d₀ rest ih =>
    intro pairs oe out hout hpw
    unfold applyGoDirs at hout
    cases hP : ParseSingleDir fs d₀ with
    | error e =>
      rw [hP] at hout
      cases hout
      exact hpw
    | ok ro =>
      rw [hP] at hout
      cases ro with
      | none =>
        exact ih _ oe out hout (pw_deleteBy segLt d₀ pairs hpw)
      | some rf =>
        exact ih _ oe out hout
          (pw_upsertBy segLt segLt_trans segLt_total d₀ rf pairs hpw)

lemma applyGoDirs_all_ok (fs : FS) : ∀ (dirs : List (List String))
    (pairs out : List (List String × RouteFile)),
    applyGoDirs fs dirs pairs = (none, out) →
    ∀ d ∈ dirs, ∃ r, ParseSingleDir fs d = .ok r := by
  intro dirs
  induction dirs with
  | nil =>
    intro pairs out _ d hd
    simp at hd
  | cons d₀ rest ih =>
    intro pairs out hout d hd
    unfold applyGoDirs at hout
    cases hP : ParseSingleDir fs d₀ with
    | error e =>
      rw [hP] at hout
      cases hout
    | ok ro =>
      rw [hP] at hout
      rcases List.mem_cons.mp hd with h | h
      · exact ⟨ro, h ▸ hP⟩
      · cases ro with
        | none => exact ih _ out hout d h
        | some rf => exact ih _ out hout d h

lemma applyGoDirs_lookup (fs : FS) : ∀ (dirs : List (List String))
    (pairs out : List (List String × RouteFile)),
    dirs.Nodup → pwLt segLt pairs →
    applyGoDirs fs dirs pairs = (none, out) → ∀ d,
    out.lookup d =
      if d ∈ dirs then
        match ParseSingleDir fs d with
        | .ok r => r
        | .error _ => none
      else pairs.lookup d := by
  intro dirs
  induction dirs with
  | nil =>
    intro pairs out _ _ hout d
    cases hout
    simp
  | cons d₀ rest ih =>
    intro pairs out hnd hpw hout d
    rw [List.nodup_cons] at hnd
    unfold applyGoDirs at hout
    cases hP : ParseSingleDir fs d₀ with
    | error e =>
      rw [hP] at hout
      cases hout
    | ok ro =>
      rw [hP] at hout
      cases ro with
      | none =>
        have hIH := ih _ out hnd.2 (pw_deleteBy segLt d₀ pairs hpw) hout
        by_cases hd : d = d₀
        · subst hd
          rw [hIH d, if_neg (fun hc => hnd.1 hc), if_pos (List.mem_cons_self _ _), hP]
          exact lookup_deleteBy_self segLt segLt_irrefl d pairs hpw
        · rw [hIH d]
          by_cases hr : d ∈ rest
          · rw [if_pos hr, if_pos (List.mem_cons_of_mem _ hr)]
          · rw [if_neg hr,
              if_neg (fun hc => by
                rcases List.mem_cons.mp hc with h | h
                · exact hd h
                · exact hr h)]
            exact lookup_deleteBy_ne d₀ d hd pairs
      | some rf =>
        have hIH := ih _ out hnd.2
          (pw_upsertBy segLt segLt_trans segLt_total d₀ rf pairs hpw) hout
        by_cases hd : d = d₀
        · subst hd
          rw [hIH d, if_neg (fun hc => hnd.1 hc),
            if_pos (List.mem_cons_self _ _), hP]
          exact lookup_upsertBy_self segLt d rf pairs
        · rw [hIH d]
          by_cases hr : d ∈ rest
          · rw [if_pos hr, if_pos (List.mem_cons_of_mem _ hr)]
          · rw [if_neg hr,
              if_neg (fun hc => by
                rcases List.mem_cons.mp hc with h | h
                · exact hd h
                · exact hr h)]
            exact lookup_upsertBy_ne segLt d₀ rf d hd pairs

lemma containsSegs_of_mem (x : List String) :
    ∀ l : List (List String), x ∈ l → l.contains x = true := by
  intro l
  induction l with
  | nil =>
    intro h
    simp at h
  | cons y ys ih =>
    intro h
    simp only [List.contains_cons]
    rcases List.mem_cons.mp h with h | h
    · rw [h]
      simp
    · rw [ih h]
      simp

lemma strDedupAux_sub : ∀ (l seen : List String) (x : String),
    x ∈ dedupAux l seen → x ∈ l := by
  intro l
  induction l with
  | nil =>
    intro seen x hx
    simp [dedupAux] at hx
  | cons y ys ih =>
    intro seen x hx
    unfold dedupAux at hx
    by_cases hm : (seen.contains y : Bool)
    · rw [if_pos (by exact hm)] at hx
      exact List.mem_cons_of_mem _ (ih seen x hx)
    · rw [if_neg (by exact fun hc => hm hc)] at hx
      rcases List.mem_cons.mp hx with h | h
      · exact h ▸ List.mem_cons_self _ _
      · exact List.mem_cons_of_mem _ (ih (y :: seen) x h)

lemma invalidate_sound (c : Cache) (fsPrev fs : FS)
    (paths : List (List String)) (hc : cacheSound c fsPrev)
    (htsx : ∀ p, p ∉ paths → fsPrev.tsx.lookup p = fs.tsx.lookup p)
    (hgo : ∀ d, d ∉ paths.map List.dropLast →
      dirHasGoFile fsPrev d = dirHasGoFile fs d) :
    cacheSound (invalidatePaths c paths) fs := by
  constructor
  · intro e he
    unfold invalidatePaths at he
    simp only at he
    have hm := List.mem_filter.mp he
    have hnotin : e.1 ∉ paths := by
      intro hin
      rw [containsSegs_of_mem e.1 paths hin] at hm
      simp at hm
    rw [← htsx e.1 hnotin]
    exact hc.1 e hm.1
  · intro e he
    unfold invalidatePaths at he
    simp only at he
    have hm := List.mem_filter.mp he
    have hnotin : e.1 ∉ paths.map List.dropLast := by
      intro hin
      rw [containsSegs_of_mem e.1 (paths.map List.dropLast) hin] at hm
      simp at hm
    rw [← hgo e.1 hnotin]
    exact hc.2 e hm.1

lemma goCovered_lookup (fsPrev fs : FS) (dirs : List (List String))
    (h : goCovered fsPrev fs dirs = true) :
    ∀ d, d ∉ dirs → fsPrev.goDirs.lookup d = fs.goDirs.lookup d := by
  intro d hd
  by_cases hk : d ∈ fsPrev.goDirs.map Prod.fst ++ fs.goDirs.map Prod.fst
  · have hall := List.all_eq_true.mp h d hk
    rw [Bool.or_eq_true] at hall
    rcases hall with h' | h'
    · exact absurd (of_decide_eq_true h') hd
    · exact of_decide_eq_true h'
  · rw [List.mem_append] at hk
    push_neg at hk
    rw [lookup_none_of_not_mem d _ hk.1, lookup_none_of_not_mem d _ hk.2]

lemma tsxCovered_lookup (fsPrev fs : FS) (paths : List (List String))
    (h : tsxCovered fsPrev fs paths = true) :
    ∀ p, p ∉ paths → fsPrev.tsx.lookup p = fs.tsx.lookup p := by
  intro p hp
  by_cases hk : p ∈ fsPrev.tsx.map Prod.fst ++ fs.tsx.map Prod.fst
  · have hall := List.all_eq_true.mp h p hk
    rw [Bool.or_eq_true] at hall
    rcases hall with h' | h'
    · exact absurd (of_decide_eq_true h') hp
    · exact of_decide_eq_true h'
  · rw [List.mem_append] at hk
    push_neg at hk
    rw [lookup_none_of_not_mem p _ hk.1, lookup_none_of_not_mem p _ hk.2]

lemma depJobsOf_present (fs : FS)
    (pairs : List (List String × RouteFile)) :
    ∀ d ∈ depJobsOf fs pairs,
      (fs.tsx.lookup (d ++ ["index.tsx"])).isSome = true := by
  intro d hd
  unfold depJobsOf at hd
  simp only at hd
  rcases List.mem_append.mp hd with h | h
  · rw [List.mem_filterMap] at h
    obtain ⟨e, _, hfe⟩ := h
    by_cases hcond : (conventions.IsRouteDir (dirKey e.1)
        && (fs.tsx.lookup (e.1 ++ ["index.tsx"])).isSome) = true
    · rw [if_pos hcond] at hfe
      cases hfe
      exact (Bool.and_eq_true _ _ |>.mp hcond).2
    · rw [if_neg hcond] at hfe
      cases hfe
  · have hmem := List.mem_of_mem_filter h
    unfold discoverTSXRouteDirs at hmem
    rw [List.mem_map] at hmem
    obtain ⟨n, hn, hdn⟩ := hmem
    have hn' : n ∈ fs.tsx.filterMap fun e =>
        match e.1 with
        | ["routes", n, "index.tsx"] => some n
        | _ => none := by
      have hn2 := (sortStrings_perm _).mem_iff.mp hn
      exact strDedupAux_sub _ [] n hn2
    rw [List.mem_filterMap] at hn'
    obtain ⟨e, he, hfe⟩ := hn'
    have hkey : e.1 = ["routes", n, "index.tsx"] := by
      split at hfe
      · next n' heq =>
        cases hfe
        exact heq
      · cases hfe
    subst hdn
    have : (["routes", n] ++ ["index.tsx"]) = e.1 := by
      rw [hkey]
      rfl
    rw [this]
    exact mem_keys_lookup_isSome e.1 fs.tsx
      (hkey ▸ List.mem_map_of_mem Prod.fst he)

lemma mkEntries_lookup (deps : List (String × List String)) :
    ∀ (k : String) (v : String), (mkEntries deps).lookup k = some v →
      v = entryFileName k := by
  induction deps with
  | nil =>
    intro k v h
    cases h
  | cons e rest ih =>
    intro k v h
    unfold mkEntries at h
    rw [List.filterMap_cons] at h
    by_cases hR : conventions.IsRouteDir e.1 = true
    · rw [if_pos hR] at h
      simp only [List.lookup] at h
      cases hb : (k == e.1) with
      | true =>
        rw [hb] at h
        cases h
        rw [eq_of_beq hb]
      | false =>
        rw [hb] at h
        exact ih k v h
    · rw [if_neg hR] at h
      exact ih k v h

lemma regenEntries_eq (oldDeps : List (String × List String))
    (oldEntries : List (String × String))
    (hold : ∀ k v, oldEntries.lookup k = some v → v = entryFileName k) :
    ∀ newDeps, regenEntries oldDeps oldEntries newDeps
      = mkEntries newDeps := by
  intro newDeps
  unfold regenEntries mkEntries
  refine List.filterMap_congr ?_
  intro e _
  by_cases hR : conventions.IsRouteDir e.1 = true
  · rw [if_pos hR, if_pos hR]
    simp only
    cases hoe : oldEntries.lookup e.1 with
    | none =>
      simp only [Option.getD]
      rw [if_pos (by simp)]
    | some v =>
      have hv := hold e.1 v hoe
      simp only [Option.getD]
      rw [hv]
      rw [ite_self]
  · rw [if_neg hR, if_neg hR]

lemma lookup_of_mem_nodup {α : Type} :
    ∀ (l : List (List String × α)) (k : List String) (v : α),
      nodupSegKeys (l.map Prod.fst) = true → (k, v) ∈ l →
      l.lookup k = some v := by
  intro l
  induction l with
  | nil =>
    intro k v _ hm
    simp at hm
  | cons e rest ih =>
    obtain ⟨k', v'⟩ := e
    intro k v hnd hm
    have hnd' := nodupSegKeys_cons k' (rest.map Prod.fst)
      (by simpa using hnd)
    rcases List.mem_cons.mp hm with h | h
    · cases h
      simp [List.lookup]
    · have hne : k ≠ k' := by
        intro hc
        subst hc
        exact hnd'.1 (List.mem_map_of_mem Prod.fst h)
      have hb : (k == k') = false := by
        rw [beq_eq_false_iff_ne]
        exact hne
      simp only [List.lookup, hb]
      exact ih k v hnd'.2 h

lemma newFSCache_sound (fs : FS) : cacheSound newFSCache fs := by
  constructor
  · intro e he
    simp [newFSCache] at he
  · intro e he
    simp [newFSCache] at he

lemma generate_eq (fs : FS) (mp : String) (stG : GenState)
    (h : generate fs mp = .ok stG) :
    ∃ pairs depsL c2 code,
      ParseDir fs = .ok pairs ∧
      analyzeAll fs (depJobsOf fs pairs) [] (some newFSCache)
        = (none, depsL, c2) ∧
      GenerateServer mp (pairs.map Prod.snd) depsL = .ok code ∧
      stG = ⟨pairs, depsL, mkEntries depsL, code, c2⟩ := by
  unfold generate at h
  revert h
  cases hP : ParseDir fs with
  | error e =>
    intro h
    cases h
  | ok pairs =>
    dsimp only
    rcases hB : analyzeAll fs (depJobsOf fs pairs) [] (some newFSCache)
      with ⟨oe, depsL, c2⟩
    cases oe with
    | some e =>
      intro h
      cases h
    | none =>
      dsimp only
      cases hC : GenerateServer mp (pairs.map Prod.snd) depsL with
      | error e =>
        intro h
        cases h
      | ok code =>
        intro h
        exact ⟨pairs, depsL, c2, code, rfl, hB, hC, (Except.ok.inj h).symm⟩

lemma generate_cacheSound (fs : FS) (mp : String) (stG : GenState)
    (h : generate fs mp = .ok stG) : cacheSoundO stG.cache fs := by
  obtain ⟨pairs, depsL, c2, code, _, hB, _, hst⟩ := generate_eq fs mp stG h
  have hs := analyzeAll_soundPreserve fs (depJobsOf fs pairs) []
    (some newFSCache) (newFSCache_sound fs)
  rw [hB] at hs
  rw [hst]
  exact hs

lemma regen_step (fsPrev fs : FS) (mp : String) (st stG : GenState)
    (events : List ChangeEvent)
    (hwfP : wfFS fsPrev = true)
    (hG : generate fsPrev mp = .ok stG)
    (hfb : st.filesByDir = stG.filesByDir)
    (hdeps : st.deps = stG.deps)
    (hent : st.entries = stG.entries)
    (hsound : cacheSoundO st.cache fsPrev)
    (hOK : eventsOK fsPrev fs events = true)
    (hsucc : (regenerate fs mp st events).1 = none) :
    ∃ stF, generate fs mp = .ok stF ∧
      eqCore (regenerate fs mp st events).2 stF ∧
      cacheSoundO (regenerate fs mp st events).2.cache fs := by
  have hOKu := hOK
  unfold eventsOK at hOKu
  rw [Bool.and_eq_true, Bool.and_eq_true, Bool.and_eq_true] at hOKu
  obtain ⟨⟨⟨hwf, hnp⟩, hgc⟩, htc⟩ := hOKu
  obtain ⟨pairsP, depsP, c2P, codeP, hPD, hAA, hGS, hstG⟩ :=
    generate_eq fsPrev mp stG hG
  unfold ParseDir at hPD
  have hwfPgo : nodupSegKeys (fsPrev.goDirs.map Prod.fst) = true := by
    unfold wfFS at hwfP
    rw [Bool.and_eq_true] at hwfP
    exact hwfP.1
  have hwfgo : nodupSegKeys (fs.goDirs.map Prod.fst) = true := by
    unfold wfFS at hwf
    rw [Bool.and_eq_true] at hwf
    exact hwf.1
  have hpwP : pwLt segLt pairsP :=
    parseDirAux_pw fsPrev.goDirs [] pairsP List.Pairwise.nil hPD
  have hfbP : st.filesByDir = pairsP := by
    rw [hfb, hstG]
  rcases hA : applyGoDirs fs (goChangedDirsOf events) st.filesByDir
    with ⟨oe, pairs1⟩
  cases oe with
  | some e =>
    exfalso
    have hre : (regenerate fs mp st events).1 = some e := by
      unfold regenerate
      rw [hA]
    rw [hre] at hsucc
    cases hsucc
  | none =>
    have hpw1 : pwLt segLt pairs1 :=
      applyGoDirs_pw fs _ _ none pairs1 hA (hfbP ▸ hpwP)
    have hallP := parseDirAux_all_ok fsPrev.goDirs [] pairsP hPD
    have hallA := applyGoDirs_all_ok fs _ _ pairs1 hA
    have hfresh : ∀ e ∈ fs.goDirs, prunedDir e.1 = false →
        e.2.isEmpty = false →
        ∃ r, parseRouteDir (dirKey e.1) e.2 = .ok r := by
      intro e he hpr hemp
      by_cases hch : e.1 ∈ goChangedDirsOf events
      · obtain ⟨r, hr⟩ := hallA e.1 hch
        unfold ParseSingleDir at hr
        rw [lookup_of_mem_nodup fs.goDirs e.1 e.2 hwfgo he] at hr
        dsimp only at hr
        rw [if_neg (by rw [hemp]; exact fun hc => Bool.noConfusion hc)] at hr
        exact ⟨r, hr⟩
      · have hlk := goCovered_lookup fsPrev fs _ hgc e.1 hch
        have hlf : fs.goDirs.lookup e.1 = some e.2 :=
          lookup_of_mem_nodup _ _ _ hwfgo he
        have hlp : fsPrev.goDirs.lookup e.1 = some e.2 := by
          rw [hlk, hlf]
        exact hallP (e.1, e.2) (lookup_mem_pairs _ _ _ hlp) hpr hemp
    obtain ⟨pairsF, hPDF⟩ := parseDirAux_ok_of fs.goDirs [] hfresh
    have hpwF : pwLt segLt pairsF :=
      parseDirAux_pw fs.goDirs [] pairsF List.Pairwise.nil hPDF
    have hlkF := parseDirAux_lookup fs.goDirs [] pairsF hwfgo hPDF
    have hlkP := parseDirAux_lookup fsPrev.goDirs [] pairsP hwfPgo hPD
    have hlkA := applyGoDirs_lookup fs _ _ pairs1
      (goChangedDirs_nodup events) (hfbP ▸ hpwP) hA
    have hpe : pairs1 = pairsF := by
      refine pwLt_ext segLt segLt_irrefl segLt_trans pairs1 pairsF hpw1
        hpwF ?_
      intro d
      rw [hlkA d, hlkF d]
      by_cases hch : d ∈ goChangedDirsOf events
      · rw [if_pos hch]
        obtain ⟨r, hr⟩ := hallA d hch
        have hprd : prunedDir d = false := by
          have hx := List.all_eq_true.mp hnp d hch
          rw [Bool.not_eq_true'] at hx
          exact hx
        unfold ParseSingleDir at hr
        cases hlf : fs.goDirs.lookup d with
        | none =>
          rw [hlf] at hr
          have hP1 : ParseSingleDir fs d = .ok none := by
            unfold ParseSingleDir
            rw [hlf]
          rw [hP1]
          rfl
        | some files =>
          rw [hlf] at hr
          dsimp only at hr
          by_cases hemp : files.isEmpty = true
          · have hP1 : ParseSingleDir fs d = .ok none := by
              unfold ParseSingleDir
              rw [hlf]
              dsimp only
              rw [if_pos hemp]
            rw [hP1]
            unfold parsedRow
            dsimp only
            rw [if_pos (by rw [hemp]; simp)]
            rfl
          · have hP1 : ParseSingleDir fs d
                = parseRouteDir (dirKey d) files := by
              unfold ParseSingleDir
              rw [hlf]
              dsimp only
              rw [if_neg hemp]
            rw [hP1]
            unfold parsedRow
            dsimp only
            rw [if_neg (by rw [hprd, Bool.false_or]; exact hemp)]
            cases hpr2 : parseRouteDir (dirKey d) files with
            | error e' => rfl
            | ok ro =>
              cases ro with
              | none => rfl
              | some rf => rfl
      · rw [if_neg hch]
        rw [hfbP, hlkP d]
        have hlk := goCovered_lookup fsPrev fs _ hgc d hch
        rw [hlk]
    rw [← hpe] at hPDF
    have hsound1 : cacheSoundO (st.cache.map fun c =>
        invalidatePaths c (events.map ChangeEvent.Path)) fs := by
      cases hsc : st.cache with
      | none => exact trivial
      | some c =>
        simp only [Option.map]
        refine invalidate_sound c fsPrev fs _ ?_ ?_ ?_
        · rw [hsc] at hsound
          exact hsound
        · exact tsxCovered_lookup fsPrev fs _ htc
        · intro d hd
          have hnotch : d ∉ goChangedDirsOf events := fun hc =>
            hd (goChangedDirs_sub_evicted events d hc)
          have hlk := goCovered_lookup fsPrev fs _ hgc d hnotch
          unfold dirHasGoFile
          rw [hlk]
    have hjobs := depJobsOf_present fs pairs1
    have hok1 := analyzeAll_ok_eq fs (depJobsOf fs pairs1) []
      (st.cache.map fun c =>
        invalidatePaths c (events.map ChangeEvent.Path))
      (some newFSCache) hsound1 (newFSCache_sound fs) hjobs
    have haaR : analyzeAll fs (depJobsOf fs pairs1) []
        (st.cache.map fun c =>
          invalidatePaths c (events.map ChangeEvent.Path))
        = (none,
          (analyzeAll fs (depJobsOf fs pairs1) []
            (st.cache.map fun c =>
              invalidatePaths c (events.map ChangeEvent.Path))).2.1,
          (analyzeAll fs (depJobsOf fs pairs1) []
            (st.cache.map fun c =>
              invalidatePaths c (events.map ChangeEvent.Path))).2.2) := by
      rw [← hok1.1]
    have hok2 := analyzeAll_ok_eq fs (depJobsOf fs pairs1) []
      (some newFSCache)
      (st.cache.map fun c =>
        invalidatePaths c (events.map ChangeEvent.Path))
      (newFSCache_sound fs) hsound1 hjobs
    have haaF : analyzeAll fs (depJobsOf fs pairs1) [] (some newFSCache)
        = (none,
          (analyzeAll fs (depJobsOf fs pairs1) []
            (some newFSCache)).2.1,
          (analyzeAll fs (depJobsOf fs pairs1) []
            (some newFSCache)).2.2) := by
      rw [← hok2.1]
    cases hGS2 : GenerateServer mp (pairs1.map Prod.snd)
        ((analyzeAll fs (depJobsOf fs pairs1) []
          (st.cache.map fun c =>
            invalidatePaths c (events.map ChangeEvent.Path))).2.1) with
    | error e =>
      exfalso
      have hre : (regenerate fs mp st events).1 = some e := by
        unfold regenerate
        rw [hA]
        dsimp only
        rw [haaR]
        dsimp only
        rw [hGS2]
      rw [hre] at hsucc
      cases hsucc
    | ok code =>
      have hGSF : GenerateServer mp (pairs1.map Prod.snd)
          ((analyzeAll fs (depJobsOf fs pairs1) []
            (some newFSCache)).2.1) = .ok code := by
        rw [← hok1.2]
        exact hGS2
      have hgen : generate fs mp = .ok
          ⟨pairs1,
           (analyzeAll fs (depJobsOf fs pairs1) [] (some newFSCache)).2.1,
           mkEntries ((analyzeAll fs (depJobsOf fs pairs1) []
             (some newFSCache)).2.1),
           code,
           (analyzeAll fs (depJobsOf fs pairs1) []
             (some newFSCache)).2.2⟩ := by
        unfold generate ParseDir
        rw [hPDF]
        dsimp only
        rw [haaF]
        dsimp only
        rw [hGSF]
      have hre : regenerate fs mp st events = (none,
          ⟨pairs1,
           (analyzeAll fs (depJobsOf fs pairs1) []
             (st.cache.map fun c =>
               invalidatePaths c (events.map ChangeEvent.Path))).2.1,
           regenEntries st.deps st.entries
             ((analyzeAll fs (depJobsOf fs pairs1) []
               (st.cache.map fun c =>
                 invalidatePaths c (events.map ChangeEvent.Path))).2.1),
           code,
           (analyzeAll fs (depJobsOf fs pairs1) []
             (st.cache.map fun c =>
               invalidatePaths c (events.map ChangeEvent.Path))).2.2⟩) := by
        unfold regenerate
        rw [hA]
        dsimp only
        rw [haaR]
        dsimp only
        rw [hGS2]
      refine ⟨_, hgen, ?_, ?_⟩
      · rw [hre]
        refine ⟨rfl, hok1.2, ?_, rfl⟩
        have hold : ∀ k v, st.entries.lookup k = some v →
            v = entryFileName k := by
          intro k v hkv
          rw [hent, hstG] at hkv
          exact mkEntries_lookup depsP k v hkv
        show regenEntries st.deps st.entries _ = mkEntries _
        rw [regenEntries_eq st.deps st.entries hold, hok1.2]
      · rw [hre]
        have hfinal := analyzeAll_soundPreserve fs (depJobsOf fs pairs1) []
          (st.cache.map fun c =>
            invalidatePaths c (events.map ChangeEvent.Path)) hsound1
        exact hfinal

lemma applyBatches_inv (mp : String) :
    ∀ (batches : List (FS × List ChangeEvent)) (fsPrev : FS)
      (st stG : GenState),
      wfFS fsPrev = true →
      generate fsPrev mp = .ok stG →
      eqCore st stG →
      cacheSoundO st.cache fsPrev →
      batchesOK fsPrev batches = true →
      (applyBatches mp batches st).1 = none →
      ∃ stF, generate (lastFS fsPrev batches) mp = .ok stF ∧
        eqCore (applyBatches mp batches st).2 stF ∧
        cacheSoundO (applyBatches mp batches st).2.cache
          (lastFS fsPrev batches) := by
  intro batches
  induction batches with
  | nil =>
    intro fsPrev st stG hwf hG hcore hsnd _ _
    exact ⟨stG, hG, hcore, hsnd⟩
  | cons b rest ih =>
    obtain ⟨fs, evs⟩ := b
    intro fsPrev st stG hwf hG hcore hsnd hbOK hsucc
    unfold batchesOK at hbOK
    rw [Bool.and_eq_true] at hbOK
    obtain ⟨hev, hrest⟩ := hbOK
    rcases hre : regenerate fs mp st evs with ⟨oe, st'⟩
    cases oe with
    | some e =>
      exfalso
      have happ : (applyBatches mp ((fs, evs) :: rest) st).1 = some e := by
        unfold applyBatches
        rw [hre]
      rw [happ] at hsucc
      cases hsucc
    | none =>
      have hre1 : (regenerate fs mp st evs).1 = none := by
        rw [hre]
      obtain ⟨stF1, hgen1, hcore1, hsnd1⟩ := regen_step fsPrev fs mp st stG
        evs hwf hG hcore.1 hcore.2.1 hcore.2.2.1 hsnd hev hre1
      rw [hre] at hcore1 hsnd1
      have happ : applyBatches mp ((fs, evs) :: rest) st
          = applyBatches mp rest st' := by
        simp only [applyBatches, hre]
      have hwf1 : wfFS fs = true := by
        unfold eventsOK at hev
        rw [Bool.and_eq_true, Bool.and_eq_true, Bool.and_eq_true] at hev
        exact hev.1.1.1
      rw [happ]
      rw [happ] at hsucc
      exact ih fs st' stF1 hwf1 hgen1 hcore1 hsnd1 hrest hsucc

end codegen

/-- C1 (amended): after a successful full `Generate`, for every sequence
of change-event batches in which each batch's events avoid the pruned
directory names and cover exactly the `.go`-directory and component-file
differences between consecutive well-formed trees, if every incremental
`Regenerate` succeeds then the parsed-file table, the dependency map and
the generated server-entry text held by the Generator equal those a
fresh full `Generate` computes on the final tree (the original claim is
refuted for arbitrary batches by `c1_counterexample`: events under
`vendor/` make `ParseSingleDir` parse a directory that `ParseDir`
prunes). -/
theorem c1_incremental_refines_full (mp : String) (fs0 : codegen.FS)
    (batches : List (codegen.FS × List codegen.ChangeEvent))
    (st0 stF : codegen.GenState)
    (hwf0 : codegen.wfFS fs0 = true)
    (hG0 : codegen.generate fs0 mp = .ok st0)
    (hbOK : codegen.batchesOK fs0 batches = true)
    (hsucc : (codegen.applyBatches mp batches st0).1 = none)
    (hGF : codegen.generate (codegen.lastFS fs0 batches) mp = .ok stF) :
    (codegen.applyBatches mp batches st0).2.filesByDir = stF.filesByDir ∧
    (codegen.applyBatches mp batches st0).2.deps = stF.deps ∧
    (codegen.applyBatches mp batches st0).2.prevServerCode
      = stF.prevServerCode := by
  obtain ⟨stF', hgen', hcore', _⟩ := codegen.applyBatches_inv mp batches
    fs0 st0 st0 hwf0 hG0 ⟨rfl, rfl, rfl, rfl⟩
    (codegen.generate_cacheSound fs0 mp st0 hG0) hbOK hsucc
  rw [hGF] at hgen'
  have hse : stF = stF' := Except.ok.inj hgen'
  rw [← hse] at hcore'
  exact ⟨hcore'.1, hcore'.2.1, hcore'.2.2.2⟩

/-- Witness for C1 (amended): one batch editing the `routes/a` handler
satisfies the compatibility side conditions, and the incremental state
matches the fresh rebuild on the edited tree. -/
theorem c1_incremental_refines_full_witness :
    (codegen.wfFS codegen.fsC1w0 = true ∧
     codegen.generate codegen.fsC1w0 "m" =
       .ok (codegen.getSt (codegen.generate codegen.fsC1w0 "m")) ∧
     codegen.batchesOK codegen.fsC1w0
       [(codegen.fsC1w1, [⟨["routes", "a", "a.go"], "go"⟩])] = true ∧
     (codegen.applyBatches "m"
       [(codegen.fsC1w1, [⟨["routes", "a", "a.go"], "go"⟩])]
       (codegen.getSt (codegen.generate codegen.fsC1w0 "m"))).1 = none ∧
     codegen.generate (codegen.lastFS codegen.fsC1w0
       [(codegen.fsC1w1, [⟨["routes", "a", "a.go"], "go"⟩])]) "m" =
       .ok (codegen.getSt (codegen.generate codegen.fsC1w1 "m"))) ∧
    ((codegen.applyBatches "m"
       [(codegen.fsC1w1, [⟨["routes", "a", "a.go"], "go"⟩])]
       (codegen.getSt (codegen.generate codegen.fsC1w0 "m"))).2.filesByDir
        = (codegen.getSt (codegen.generate codegen.fsC1w1 "m")).filesByDir ∧
     (codegen.applyBatches "m"
       [(codegen.fsC1w1, [⟨["routes", "a", "a.go"], "go"⟩])]
       (codegen.getSt (codegen.generate codegen.fsC1w0 "m"))).2.deps
        = (codegen.getSt (codegen.generate codegen.fsC1w1 "m")).deps ∧
     (codegen.applyBatches "m"
       [(codegen.fsC1w1, [⟨["routes", "a", "a.go"], "go"⟩])]
       (codegen.getSt (codegen.generate codegen.fsC1w0 "m"))).2.prevServerCode
        = (codegen.getSt (codegen.generate codegen.fsC1w1 "m")).prevServerCode) :=
  ⟨⟨by decide, rfl, by decide, rfl, rfl⟩,
   c1_incremental_refines_full "m" codegen.fsC1w0
     [(codegen.fsC1w1, [⟨["routes", "a", "a.go"], "go"⟩])]
     (codegen.getSt (codegen.generate codegen.fsC1w0 "m"))
     (codegen.getSt (codegen.generate codegen.fsC1w1 "m"))
     (by decide) rfl (by decide) rfl rfl⟩

